import Mathlib

/-
Verification of the climb-assess repository (self_assesment.py and the
alternate script self-assesment.py).

Strings are modelled as lists of characters (`Str := List Char`), so that
every operation of the Python source (splitting, joining, formatting) is an
executable structural recursion that the kernel can evaluate.  Python dicts
are modelled as association lists in insertion order, with the dict
operations (insert-or-overwrite, add-to-counter, append-to-group) made
explicit.  Machine integers do not occur: Python ints are arbitrary
precision, so they are embedded as Int/Nat directly.
-/

abbrev Str := List Char

/-- Whitespace set of Python str.split / str.strip (ASCII part). -/
def isWsCh (c : Char) : Bool :=
  c = ' ' || c = '\t' || c = '\n' || c = '\r' || c = '\x0b' || c = '\x0c'

/-- Decimal digit characters, the material Python int() accepts between the
optional sign and the end of a stripped numeral. -/
def isDigitCh (c : Char) : Bool :=
  c = '0' || c = '1' || c = '2' || c = '3' || c = '4' || c = '5' ||
    c = '6' || c = '7' || c = '8' || c = '9'

/-- Decimal digit character for a digit value (values above 9 never occur). -/
def digitCh (d : Nat) : Char :=
  if d = 0 then '0' else if d = 1 then '1' else if d = 2 then '2'
  else if d = 3 then '3' else if d = 4 then '4' else if d = 5 then '5'
  else if d = 6 then '6' else if d = 7 then '7' else if d = 8 then '8' else '9'

/-- Numeric value of a decimal string, as computed by folding digits
(big-endian), the way Python int() evaluates a digit string. -/
def charsToNat (s : Str) : Nat :=
  s.foldl (fun a c => 10 * a + (c.toNat - 48)) 0

/-- Fuel-driven decimal rendering of a natural number; with fuel at least n
it produces the usual decimal digits, most significant first. -/
def natToCharsAux : Nat → Nat → Str
  | 0, _ => []
  | _ + 1, 0 => []
  | fuel + 1, n + 1 => natToCharsAux fuel ((n + 1) / 10) ++ [digitCh ((n + 1) % 10)]

/-- Decimal rendering of a natural number, as produced by Python str(). -/
def natToChars (n : Nat) : Str :=
  if n = 0 then ['0'] else natToCharsAux n n

/-- Rendering of a Python int by str(): optional minus sign then digits. -/
def intToChars (i : Int) : Str :=
  if i < 0 then '-' :: natToChars i.natAbs else natToChars i.toNat

/-- Parse a non-empty all-digit string; used to model Python int() on
unsigned material.  Returns none exactly when int() raises ValueError. -/
def parseNatDigits (s : Str) : Option Nat :=
  if s ≠ [] ∧ ∀ c ∈ s, isDigitCh c = true then some (charsToNat s) else none

/-- Model of Python int() on an already-stripped string: optional sign
followed by at least one digit.  (Python also allows underscores between
digits; the source never produces them, so they are not modelled.) -/
def parseIntChars (s : Str) : Option Int :=
  match s with
  | [] => none
  | c :: rest =>
    if c = '-' then
      match parseNatDigits rest with
      | some n => some (-(n : Int))
      | none => none
    else if c = '+' then
      match parseNatDigits rest with
      | some n => some ((n : Int))
      | none => none
    else
      match parseNatDigits (c :: rest) with
      | some n => some ((n : Int))
      | none => none

/-- Left-pad a digit string with zeros to the given width (strftime padding). -/
def padZeros (w : Nat) (s : Str) : Str :=
  List.replicate (w - s.length) '0' ++ s

/-- Model of Python str.split(sep) for a one-character separator: the list of
(possibly empty) fragments between occurrences of the separator. -/
def splitOnCh (c : Char) : Str → List Str
  | [] => [[]]
  | x :: xs =>
    if x = c then [] :: splitOnCh c xs
    else
      match splitOnCh c xs with
      | [] => [[x]]
      | h :: t => (x :: h) :: t

/-- Accumulator-based worker for whitespace splitting; acc is the word read
so far. -/
def splitWsAux : Str → Str → List Str
  | [], acc => if acc = [] then [] else [acc]
  | c :: cs, acc =>
    if isWsCh c then
      if acc = [] then splitWsAux cs [] else acc :: splitWsAux cs []
    else splitWsAux cs (acc ++ [c])

/-- Model of Python str.split() with no argument: maximal runs of
non-whitespace characters; leading and trailing whitespace is ignored, so it
also models the composite str.strip().split() used by read_results. -/
def pySplitWs (s : Str) : List Str := splitWsAux s []

/-- Model of Python sep.join for a one-character separator. -/
def joinWith (sep : Char) : List Str → Str
  | [] => []
  | [t] => t
  | t :: ts => t ++ sep :: joinWith sep ts

/-- Model of Python str.strip(): drop leading and trailing whitespace. -/
def pyStrip (s : Str) : Str :=
  ((s.dropWhile isWsCh).reverse.dropWhile isWsCh).reverse

/-- Model of Python str.replace for one-character arguments. -/
def pyReplace (a b : Char) (s : Str) : Str :=
  s.map (fun c => if c = a then b else c)

/-- Model of the format spec with left alignment to a given width,
as in the table title row: pad on the right with spaces, never truncate. -/
def pyLjust (w : Nat) (s : Str) : Str :=
  s ++ List.replicate (w - s.length) ' '

/-- Model of the centering format spec: total width w, extra space on the
right, never truncate. -/
def pyCenter (w : Nat) (s : Str) : Str :=
  List.replicate ((w - s.length) / 2) ' ' ++ s ++
    List.replicate ((w - s.length) - (w - s.length) / 2) ' '

/-- Python dict lookup on an association list. -/
def alookup {κ β : Type} [DecidableEq κ] (k : κ) : List (κ × β) → Option β
  | [] => none
  | (k1, v) :: t => if k1 = k then some v else alookup k t

/-- Python dict assignment d[k] = v on an association list: overwrite in
place if the key exists, else append (dict insertion order). -/
def dictInsert {κ β : Type} [DecidableEq κ] (l : List (κ × β)) (k : κ) (v : β) :
    List (κ × β) :=
  match l with
  | [] => [(k, v)]
  | (k1, v1) :: t => if k1 = k then (k, v) :: t else (k1, v1) :: dictInsert t k v

/-- The counter idiom of the source: if key not in d, d[key] = 0, then
d[key] += a. -/
def addCount {κ : Type} [DecidableEq κ] (l : List (κ × Int)) (k : κ) (a : Int) :
    List (κ × Int) :=
  match l with
  | [] => [(k, a)]
  | (k1, v) :: t => if k1 = k then (k1, v + a) :: t else (k1, v) :: addCount t k a

/-- The grouping idiom of the source: if key not in d, d[key] = [], then
d[key].append(r). -/
def addGroup {κ ρ : Type} [DecidableEq κ] (gs : List (κ × List ρ)) (k : κ) (r : ρ) :
    List (κ × List ρ) :=
  match gs with
  | [] => [(k, [r])]
  | (k1, l) :: t => if k1 = k then (k1, l ++ [r]) :: t else (k1, l) :: addGroup t k r

/-- Sum of the values of an association list, i.e. sum(d.values()). -/
def sumVals {κ : Type} (l : List (κ × Int)) : Int :=
  (l.map Prod.snd).sum

/-- Python datetime.datetime value, at its native microsecond precision,
which is also the precision of the fixed pattern of the source. -/
structure DateTime where
  day : Nat
  month : Nat
  year : Nat
  hour : Nat
  minute : Nat
  second : Nat
  micro : Nat
deriving DecidableEq

/-- Ranges a real datetime.datetime value satisfies (day upper bound relaxed
to 31 independently of the month). -/
def DateTime.Valid (t : DateTime) : Prop :=
  1 ≤ t.day ∧ t.day ≤ 31 ∧ 1 ≤ t.month ∧ t.month ≤ 12 ∧ 1 ≤ t.year ∧
    t.year ≤ 9999 ∧ t.hour ≤ 23 ∧ t.minute ≤ 59 ∧ t.second ≤ 59 ∧
    t.micro ≤ 999999

instance : DecidablePred DateTime.Valid := fun t => by
  unfold DateTime.Valid; infer_instance

def fmt2 (n : Nat) : Str := padZeros 2 (natToChars n)

def fmt4 (n : Nat) : Str := padZeros 4 (natToChars n)

def fmt6 (n : Nat) : Str := padZeros 6 (natToChars n)

/-- Model of time.strftime with the fixed pattern of the source,
day.month.year-hour:minute:second:microsecond, all fields zero padded. -/
def strftimeFmt (t : DateTime) : Str :=
  fmt2 t.day ++ '.' :: (fmt2 t.month ++ '.' :: (fmt4 t.year ++ '-' ::
    (fmt2 t.hour ++ ':' :: (fmt2 t.minute ++ ':' ::
      (fmt2 t.second ++ ':' :: fmt6 t.micro)))))

/-- Model of datetime.strptime with the same fixed pattern: split on the
literal separators, require every field to be a digit string, and enforce
the field ranges strptime checks (seconds up to 61 for leap seconds). -/
def strptimeFmt (s : Str) : Option DateTime :=
  match splitOnCh '.' s with
  | [ds, ms, rest] =>
    match splitOnCh '-' rest with
    | [ys, ts] =>
      match splitOnCh ':' ts with
      | [hs, mis, ss, fs] =>
        match parseNatDigits ds, parseNatDigits ms, parseNatDigits ys,
            parseNatDigits hs, parseNatDigits mis, parseNatDigits ss,
            parseNatDigits fs with
        | some d, some m, some y, some h, some mi, some sec, some f =>
          if 1 ≤ d ∧ d ≤ 31 ∧ 1 ≤ m ∧ m ≤ 12 ∧ 1 ≤ y ∧ y ≤ 9999 ∧
              h ≤ 23 ∧ mi ≤ 59 ∧ sec ≤ 61 ∧ f ≤ 999999 then
            some ⟨d, m, y, h, mi, sec, f⟩
          else none
        | _, _, _, _, _, _, _ => none
      | _ => none
    | _ => none
  | _ => none

/-- Key order used by sorted(result_q.keys()) lifted to the pairs of the
association list. -/
def pairLe (a b : Int × Int) : Prop := a.1 ≤ b.1

instance : DecidableRel pairLe := fun a b => Int.decLe a.1 b.1

instance : IsTotal (Int × Int) pairLe := ⟨fun a b => Int.le_total a.1 b.1⟩

instance : IsTrans (Int × Int) pairLe := ⟨fun _ _ _ h1 h2 => le_trans h1 h2⟩

/-- Model of iterating sorted(result_q.keys()) over the dict: sort the
association list by key (keys of a dict are distinct, so any sort works). -/
def sortPairs (l : List (Int × Int)) : List (Int × Int) :=
  List.insertionSort pairLe l

/-- The list out built by store_results before joining: the time token
followed by one id=answer token per question, ids ascending. -/
def store_tokens (result_q : List (Int × Int)) (time : DateTime) : List Str :=
  (['t', 'i', 'm', 'e'] ++ '=' :: strftimeFmt time) ::
    (sortPairs result_q).map (fun p => intToChars p.1 ++ '=' :: intToChars p.2)

/-- Model of store_results: the exact character string appended to the
results file, namely the space-join of the tokens and a final newline
element (source lines 127-132). -/
def store_results (result_q : List (Int × Int)) (time : DateTime) : Str :=
  joinWith ' ' (store_tokens result_q time ++ [['\n']])

/-- One parsed session of read_results: the new_result dict with its time,
result_q and result_c slots. -/
structure ResultEntry where
  time : Option DateTime
  result_q : List (Int × Int)
  result_c : List (Str × Int)
deriving DecidableEq

/-- Processing of a single token i of a results line by read_results
(source lines 157-169).  none models an uncaught exception: IndexError when
the token has no separator, ValueError from int() or strptime, KeyError
when the question id is missing from the category mapping. -/
def parse_token (mapping : Int → Option Str) (st : ResultEntry) (tok : Str) :
    Option ResultEntry :=
  match splitOnCh '=' tok with
  | k :: v :: _ =>
    if k = ['t', 'i', 'm', 'e'] then
      match strptimeFmt v with
      | some t => some { st with time := some t }
      | none => none
    else
      match parseIntChars k, parseIntChars v with
      | some idx, some ans =>
        match mapping idx with
        | some cat =>
          some { st with
                  result_q := dictInsert st.result_q idx ans,
                  result_c := addCount st.result_c cat ans }
        | none => none
      | _, _ => none
  | _ => none

/-- The token loop of read_results, failure propagating. -/
def parseTokens (mapping : Int → Option Str) :
    ResultEntry → List Str → Option ResultEntry
  | st, [] => some st
  | st, tok :: toks =>
    match parse_token mapping st tok with
    | some st1 => parseTokens mapping st1 toks
    | none => none

/-- Parsing of one results-file line by read_results: strip, split on
whitespace, then fold the tokens into the fresh new_result record. -/
def parse_line (mapping : Int → Option Str) (line : Str) : Option ResultEntry :=
  parseTokens mapping ⟨none, [], []⟩ (pySplitWs line)

/-- Shape of a results-line token that is a well-formed answer token and is
not a time token: it has an equals delimiter, its key part is not the word
time, both parts parse as Python ints, and the question id is known to the
category mapping. -/
def GoodTok (mapping : Int → Option Str) (tok : Str) : Prop :=
  ∃ k v rest i a, splitOnCh '=' tok = k :: v :: rest ∧
    k ≠ ['t', 'i', 'm', 'e'] ∧ parseIntChars k = some i ∧
    parseIntChars v = some a ∧ (mapping i).isSome = true

/-- Model of read_results (source lines 135-171) on the list of lines of the
results file; any line failure aborts the whole read. -/
def read_results (mapping : Int → Option Str) : List Str → Option (List ResultEntry)
  | [] => some []
  | l :: ls =>
    match parse_line mapping l with
    | some e =>
      match read_results mapping ls with
      | some es => some (e :: es)
      | none => none
    | none => none

/-- The loop body of read_scorings on one line (source lines 71-73):
split on the equals sign, parse the left field as an int, and assign
scorings[split1.strip()] = int(split0.strip()). -/
def scoringLine (acc : List (Str × Int)) (line : Str) : Option (List (Str × Int)) :=
  match splitOnCh '=' line with
  | s0 :: s1 :: _ =>
    match parseIntChars (pyStrip s0) with
    | some n => some (dictInsert acc (pyStrip s1) n)
    | none => none
  | _ => none

def readScoringsAux (acc : List (Str × Int)) :
    List Str → Option (List (Str × Int))
  | [] => some acc
  | l :: ls =>
    match scoringLine acc l with
    | some acc1 => readScoringsAux acc1 ls
    | none => none

/-- Model of read_scorings (source lines 54-74): fold the lines of the
scoring file into a dict from trimmed label to integer score. -/
def read_scorings (ls : List Str) : Option (List (Str × Int)) :=
  readScoringsAux [] ls

/-- Success condition of read_scorings for one line: the line has an equals
delimiter and the part before it parses as an integer after trimming. -/
def ScoringLineOk (line : Str) : Prop :=
  ∃ s0 s1 rest, splitOnCh '=' line = s0 :: s1 :: rest ∧
    (parseIntChars (pyStrip s0)).isSome = true

/-- The per-cell update of the column-width pass of generate_rst_table
(source lines 346-349).  When a row is longer than col_len the source raises
IndexError; the claims only concern rows of the same arity as the headings,
where the clipping below never triggers. -/
def updateCl : List Nat → List Str → List Nat
  | cl, [] => cl
  | [], _ :: _ => []
  | w :: cl, c :: row =>
    (if c.length ≥ w - 2 then c.length + 2 else w) :: updateCl cl row

/-- The col_len list computed by generate_rst_table: headings lengths plus
two, widened by every row (source lines 344-349).  col_len entries are
always at least 2, so the truncated subtraction in the comparison agrees
with Python ints. -/
def col_widths (headings : List Str) (table : List (List Str)) : List Nat :=
  table.foldl updateCl (headings.map (fun h => h.length + 2))

/-- width = len(col_len) + sum(col_len) - 1 of the source (line 351). -/
def tableWidth (cl : List Nat) : Nat := cl.length + cl.sum - 1

/-- Length of the longest cell of column i over all rows of the table. -/
def maxCellLen (table : List (List Str)) (i : Nat) : Nat :=
  (table.map (fun r => (r.getD i []).length)).foldr max 0

/-- The horizontal separator hline of the source (lines 363-364). -/
def hLine (cl : List Nat) : Str :=
  joinWith '+' ([[]] ++ cl.map (fun w => List.replicate w '-') ++ [[]])

/-- A data or heading row of the table (lines 359-361 and 368-370): each
cell centred to its column width, then joined with bars, with a bar at each
end. -/
def rowLine (cl : List Nat) (cells : List Str) : Str :=
  joinWith '|' ([[]] ++ List.zipWith pyCenter cl cells ++ [[]])

/-- Model of generate_rst_table (source lines 325-372): the list of rendered
lines: top border, title row, separator, heading row, double separator,
then each data row followed by a separator. -/
def generate_rst_table (table : List (List Str)) (title : Str)
    (headings : List Str) : List Str :=
  let cl := col_widths headings table
  [ '+' :: (List.replicate (tableWidth cl) '-' ++ ['+']),
    '|' :: (pyLjust (tableWidth cl) title ++ ['|']),
    hLine cl,
    rowLine cl headings,
    pyReplace '-' '=' (hLine cl) ] ++
    (table.map (fun r => [rowLine cl r, hLine cl])).flatten

/-- Border glyph of a rendered table line in the sense of the spec. -/
def isBorderCh (c : Char) : Bool := c = '|' || c = '+'

def borderCount (l : Str) : Nat := l.countP isBorderCh

/-- The row built for a low-scoring answer:
(str(idx), questions[idx], str(answer)) (source line 280). -/
def lowRow (questions : Int → Str) (p : Int × Int) : Str × Str × Str :=
  (intToChars p.1, questions p.1, intToChars p.2)

/-- The low dict built by table_results_low_questions (source lines
274-280): answers of value at most 3 grouped by the category their question
id maps to, in dict iteration order. -/
def low_groups (rq : List (Int × Int)) (questions mapping : Int → Str) :
    List (Str × List (Str × Str × Str)) :=
  rq.foldl
    (fun acc p =>
      if p.2 ≤ 3 then addGroup acc (mapping p.1) (lowRow questions p) else acc)
    []

/-- Lexicographic comparison of strings by code point, as Python sorted uses
on str keys. -/
def lexLe : Str → Str → Bool
  | [], _ => true
  | _ :: _, [] => false
  | a :: as, b :: bs => if a < b then true else if b < a then false else lexLe as bs

def groupLe (a b : Str × List (Str × Str × Str)) : Prop := lexLe a.1 b.1 = true

instance : DecidableRel groupLe := fun a b => instDecidableEqBool (lexLe a.1 b.1) true

/-- Model of the report data of table_results_low_questions for one session
(source lines 274-287): the (category, rows) groups whose tables are
printed, in sorted category order.  Rendering each group with
generate_rst_table is presentation only. -/
def table_results_low_questions (rq : List (Int × Int))
    (questions mapping : Int → Str) : List (Str × List (Str × Str × Str)) :=
  List.insertionSort groupLe (low_groups rq questions mapping)

/-- The answers of a session filtered to one category with low values;
helper for stating what rows a category table holds. -/
def lowFilter (rq : List (Int × Int)) (mapping : Int → Str) (c : Str) :
    List (Int × Int) :=
  rq.filter (fun p => decide (p.2 ≤ 3) && decide (mapping p.1 = c))

/-- Combination of an optional existing group with newly appended rows. -/
def optExtend {ρ : Type} (o : Option (List ρ)) (l : List ρ) : Option (List ρ) :=
  match o, l with
  | some x, l => some (x ++ l)
  | none, [] => none
  | none, l => some l

namespace Alt

/-- Model of ask_questions of the alternate script self-assesment.py
(source lines 31-64): it walks the question list in order, fixes the answer
0 for every question with no input of any kind, and accumulates the
per-question dict and the per-category counter.  The timestamp taken at the
start and the printing are irrelevant to the returned dicts and are not
modelled. -/
def ask_questions (questions : List (Int × Str)) (mapping : Int → Str) :
    List (Int × Int) × List (Str × Int) :=
  questions.foldl
    (fun acc q => (dictInsert acc.1 q.1 0, addCount acc.2 (mapping q.1) 0))
    ([], [])

end Alt

/-- Sample timestamp for witnesses. -/
def sampleTime : DateTime := ⟨12, 10, 2026, 5, 55, 30, 123456⟩

def mentalStr : Str := ['m', 'e', 'n', 't', 'a', 'l']

def physicalStr : Str := ['p', 'h', 'y', 's', 'i', 'c', 'a', 'l']

/-- Sample category mapping for witnesses (partial, as a dict is). -/
def sampleMap : Int → Option Str := fun i =>
  if i = 0 then some mentalStr else if i = 1 then some physicalStr else none

/-- Sample category mapping as a total function, for the report claims. -/
def sampleMapT : Int → Str := fun i => if i = 0 then mentalStr else physicalStr

def sampleQs : Int → Str := fun _ => ['Q']

def sampleRq : List (Int × Int) := [(0, 2), (1, 5)]

/-- Results-file line 0=1 0=2 with a duplicated question id. -/
def sampleLineDup : Str := ['0', '=', '1', ' ', '0', '=', '2']

/-- Results-file line 0=2 1=5 with no time token. -/
def sampleLineNoTime : Str := ['0', '=', '2', ' ', '1', '=', '5']

def sampleHeads : List Str := [['A'], ['B']]

def sampleTable : List (List Str) := [[['x'], ['y']]]

def sampleTitle : Str := ['T']

/-!  Lemmas about digits and decimal numerals.  -/

theorem digitCh_isDigitCh (d : Nat) : isDigitCh (digitCh d) = true := by
  unfold digitCh
  split_ifs <;> decide

theorem digitCh_toNat (d : Nat) (h : d < 10) : (digitCh d).toNat - 48 = d := by
  unfold digitCh
  split_ifs with h0 h1 h2 h3 h4 h5 h6 h7 h8
  · subst h0; decide
  · subst h1; decide
  · subst h2; decide
  · subst h3; decide
  · subst h4; decide
  · subst h5; decide
  · subst h6; decide
  · subst h7; decide
  · subst h8; decide
  · have h9 : d = 9 := by omega
    subst h9; decide

theorem isDigitCh_cases {c : Char} (h : isDigitCh c = true) :
    c = '0' ∨ c = '1' ∨ c = '2' ∨ c = '3' ∨ c = '4' ∨ c = '5' ∨ c = '6' ∨
      c = '7' ∨ c = '8' ∨ c = '9' := by
  simp only [isDigitCh, Bool.or_eq_true, decide_eq_true_eq] at h
  tauto

theorem digit_ne {c : Char} (x : Char) (h : isDigitCh c = true)
    (hx : isDigitCh x = false) : c ≠ x := by
  intro e
  subst e
  rw [h] at hx
  cases hx

theorem digit_not_ws {c : Char} (h : isDigitCh c = true) : isWsCh c = false := by
  rcases isDigitCh_cases h with h | h | h | h | h | h | h | h | h | h <;>
    subst h <;> decide

theorem charsToNat_append_digit (l : Str) (c : Char) :
    charsToNat (l ++ [c]) = 10 * charsToNat l + (c.toNat - 48) := by
  unfold charsToNat
  rw [List.foldl_append]
  rfl

theorem charsToNat_natToCharsAux (fuel : Nat) :
    ∀ n : Nat, n ≤ fuel → charsToNat (natToCharsAux fuel n) = n := by
  induction fuel with
  | zero =>
    intro n hn
    have h0 : n = 0 := by omega
    subst h0
    rfl
  | succ f ih =>
    intro n hn
    cases n with
    | zero => rfl
    | succ m =>
      rw [natToCharsAux, charsToNat_append_digit, digitCh_toNat _ (Nat.mod_lt _ (by omega)),
        ih ((m + 1) / 10) (by omega)]
      exact Nat.div_add_mod (m + 1) 10

theorem charsToNat_natToChars (n : Nat) : charsToNat (natToChars n) = n := by
  unfold natToChars
  split_ifs with h
  · subst h; rfl
  · exact charsToNat_natToCharsAux n n le_rfl

theorem natToCharsAux_digits (fuel : Nat) :
    ∀ n : Nat, ∀ c ∈ natToCharsAux fuel n, isDigitCh c = true := by
  induction fuel with
  | zero => intro n c hc; cases hc
  | succ f ih =>
    intro n c hc
    cases n with
    | zero => cases hc
    | succ m =>
      rw [natToCharsAux] at hc
      rcases List.mem_append.mp hc with h | h
      · exact ih _ c h
      · rcases List.mem_singleton.mp h with rfl
        exact digitCh_isDigitCh _

theorem natToChars_digits (n : Nat) : ∀ c ∈ natToChars n, isDigitCh c = true := by
  unfold natToChars
  split_ifs with h
  · intro c hc
    rcases List.mem_singleton.mp hc with rfl
    decide
  · exact natToCharsAux_digits n n

theorem natToChars_ne_nil (n : Nat) : natToChars n ≠ [] := by
  unfold natToChars
  split_ifs with h
  · simp
  · cases n with
    | zero => cases h rfl
    | succ m =>
      rw [natToCharsAux]
      simp

theorem charsToNat_replicate_zero (k : Nat) :
    charsToNat (List.replicate k '0') = 0 := by
  induction k with
  | zero => rfl
  | succ k ih =>
    rw [List.replicate_succ]
    show List.foldl _ (10 * 0 + ('0'.toNat - 48)) _ = 0
    have h0 : 10 * 0 + ('0'.toNat - 48) = 0 := by decide
    rw [h0]
    exact ih

theorem charsToNat_padZeros (w : Nat) (s : Str) :
    charsToNat (padZeros w s) = charsToNat s := by
  have h := charsToNat_replicate_zero (w - s.length)
  unfold charsToNat at h ⊢
  unfold padZeros
  rw [List.foldl_append, h]

theorem padZeros_digits {s : Str} (w : Nat)
    (h : ∀ c ∈ s, isDigitCh c = true) : ∀ c ∈ padZeros w s, isDigitCh c = true := by
  intro c hc
  rcases List.mem_append.mp hc with h1 | h1
  · rcases (List.eq_of_mem_replicate h1) with rfl
    decide
  · exact h c h1

theorem padZeros_ne_nil {s : Str} (w : Nat) (h : s ≠ []) : padZeros w s ≠ [] := by
  unfold padZeros
  intro he
  rcases List.append_eq_nil.mp he with ⟨_, h2⟩
  exact h h2

theorem parseNatDigits_of_digits {s : Str} (hne : s ≠ [])
    (hd : ∀ c ∈ s, isDigitCh c = true) : parseNatDigits s = some (charsToNat s) := by
  unfold parseNatDigits
  rw [if_pos ⟨hne, hd⟩]

theorem parseNatDigits_padZeros (w n : Nat) :
    parseNatDigits (padZeros w (natToChars n)) = some n := by
  rw [parseNatDigits_of_digits (padZeros_ne_nil w (natToChars_ne_nil n))
    (padZeros_digits w (natToChars_digits n))]
  rw [charsToNat_padZeros, charsToNat_natToChars]

theorem parseNatDigits_natToChars (n : Nat) :
    parseNatDigits (natToChars n) = some n := by
  rw [parseNatDigits_of_digits (natToChars_ne_nil n) (natToChars_digits n),
    charsToNat_natToChars]

theorem parseIntChars_of_digits {s : Str} (hne : s ≠ [])
    (hd : ∀ c ∈ s, isDigitCh c = true) :
    parseIntChars s = some ((charsToNat s : Nat) : Int) := by
  cases s with
  | nil => cases hne rfl
  | cons c rest =>
    have hc : isDigitCh c = true := hd c (List.mem_cons_self c rest)
    have h1 : c ≠ '-' := digit_ne '-' hc (by decide)
    have h2 : c ≠ '+' := digit_ne '+' hc (by decide)
    simp only [parseIntChars]
    rw [if_neg h1, if_neg h2, parseNatDigits_of_digits (by simp) hd]

theorem parseIntChars_intToChars (i : Int) :
    parseIntChars (intToChars i) = some i := by
  unfold intToChars
  split_ifs with h
  · show parseIntChars ('-' :: natToChars i.natAbs) = some i
    simp only [parseIntChars]
    rw [if_pos trivial, parseNatDigits_natToChars]
    have hval : -((i.natAbs : Nat) : Int) = i := by omega
    show some (-((i.natAbs : Nat) : Int)) = some i
    rw [hval]
  · rw [parseIntChars_of_digits (natToChars_ne_nil _) (natToChars_digits _),
      charsToNat_natToChars]
    have : ((i.toNat : Nat) : Int) = i := Int.toNat_of_nonneg (by omega)
    rw [this]

theorem intToChars_inj : Function.Injective intToChars := by
  intro a b h
  have ha := parseIntChars_intToChars a
  rw [h, parseIntChars_intToChars b] at ha
  exact (Option.some.inj ha).symm

theorem intToChars_chars (i : Int) :
    ∀ c ∈ intToChars i, isDigitCh c = true ∨ c = '-' := by
  unfold intToChars
  split_ifs with h
  · intro c hc
    rcases List.mem_cons.mp hc with rfl | hc
    · right; rfl
    · left; exact natToChars_digits _ c hc
  · intro c hc
    left; exact natToChars_digits _ c hc

theorem intToChars_ne_nil (i : Int) : intToChars i ≠ [] := by
  unfold intToChars
  split_ifs with h
  · simp
  · exact natToChars_ne_nil _

theorem intToChars_ne_time (i : Int) : intToChars i ≠ ['t', 'i', 'm', 'e'] := by
  intro he
  have ht : 't' ∈ intToChars i := by rw [he]; simp
  rcases intToChars_chars i 't' ht with h | h
  · exact absurd h (by decide)
  · exact absurd h (by decide)

/-!  Lemmas about splitting and joining.  -/

theorem splitOnCh_ne_nil (c : Char) (s : Str) : splitOnCh c s ≠ [] := by
  induction s with
  | nil => simp [splitOnCh]
  | cons x xs ih =>
    simp only [splitOnCh]
    split_ifs with h
    · simp
    · cases hs : splitOnCh c xs <;> simp

theorem splitOnCh_not_mem {c : Char} {s : Str} (h : c ∉ s) :
    splitOnCh c s = [s] := by
  induction s with
  | nil => rfl
  | cons x xs ih =>
    have hx : x ≠ c := fun e => h (e ▸ List.mem_cons_self x xs)
    have hxs : c ∉ xs := fun hc => h (List.mem_cons_of_mem _ hc)
    simp only [splitOnCh, if_neg hx, ih hxs]

theorem splitOnCh_append (c : Char) (a b : Str) (h : c ∉ a) :
    splitOnCh c (a ++ c :: b) = a :: splitOnCh c b := by
  induction a with
  | nil => simp [splitOnCh]
  | cons x a1 ih =>
    have hx : x ≠ c := fun e => h (e ▸ List.mem_cons_self x a1)
    have ha : c ∉ a1 := fun hc => h (List.mem_cons_of_mem _ hc)
    show splitOnCh c (x :: (a1 ++ c :: b)) = (x :: a1) :: splitOnCh c b
    simp only [splitOnCh, if_neg hx]
    rw [ih ha]

theorem splitWsAux_word (w : Str) (hw : ∀ c ∈ w, isWsCh c = false) :
    ∀ (r acc : Str), splitWsAux (w ++ r) acc = splitWsAux r (acc ++ w) := by
  induction w with
  | nil => intro r acc; simp
  | cons c w1 ih =>
    intro r acc
    have hc : isWsCh c = false := hw c (List.mem_cons_self c w1)
    have hw1 : ∀ x ∈ w1, isWsCh x = false := fun x hx =>
      hw x (List.mem_cons_of_mem _ hx)
    show splitWsAux (c :: (w1 ++ r)) acc = _
    simp only [splitWsAux, hc, Bool.false_eq_true, if_false]
    rw [ih hw1 r (acc ++ [c])]
    simp

theorem splitWsAux_ws_cons (c : Char) (r acc : Str) (hc : isWsCh c = true)
    (ha : acc ≠ []) : splitWsAux (c :: r) acc = acc :: splitWsAux r [] := by
  simp [splitWsAux, hc, ha]

theorem joinWith_cons_cons (sep : Char) (t t1 : Str) (ts : List Str) :
    joinWith sep (t :: t1 :: ts) = t ++ sep :: joinWith sep (t1 :: ts) := by
  rfl

theorem pySplitWs_word_sp (t r : Str) (ht : t ≠ [])
    (hw : ∀ c ∈ t, isWsCh c = false) :
    splitWsAux (t ++ ' ' :: r) [] = t :: splitWsAux r [] := by
  rw [splitWsAux_word t hw (' ' :: r) []]
  simp only [List.nil_append]
  exact splitWsAux_ws_cons ' ' r t (by decide) ht

theorem pySplitWs_join_tokens (toks : List Str) (h1 : ∀ t ∈ toks, t ≠ [])
    (h2 : ∀ t ∈ toks, ∀ c ∈ t, isWsCh c = false) (hne : toks ≠ []) :
    pySplitWs (joinWith ' ' toks ++ [' ', '\n']) = toks := by
  induction toks with
  | nil => cases hne rfl
  | cons t rest ih =>
    cases rest with
    | nil =>
      show splitWsAux (t ++ ' ' :: ['\n']) [] = [t]
      rw [pySplitWs_word_sp t ['\n'] (h1 t (List.mem_cons_self t []))
        (h2 t (List.mem_cons_self t []))]
      rfl
    | cons t1 ts =>
      have ht : t ≠ [] := h1 t (List.mem_cons_self t _)
      have hwt : ∀ c ∈ t, isWsCh c = false := h2 t (List.mem_cons_self t _)
      rw [joinWith_cons_cons]
      show splitWsAux ((t ++ ' ' :: joinWith ' ' (t1 :: ts)) ++ [' ', '\n']) [] = _
      rw [List.append_assoc, List.cons_append]
      rw [pySplitWs_word_sp t _ ht hwt]
      have ihr := ih (fun x hx => h1 x (List.mem_cons_of_mem _ hx))
        (fun x hx => h2 x (List.mem_cons_of_mem _ hx)) (by simp)
      rw [show splitWsAux (joinWith ' ' (t1 :: ts) ++ [' ', '\n']) [] =
        pySplitWs (joinWith ' ' (t1 :: ts) ++ [' ', '\n']) from rfl, ihr]

theorem joinWith_append_last (sep : Char) (l : List Str) (x : Str) (h : l ≠ []) :
    joinWith sep (l ++ [x]) = joinWith sep l ++ sep :: x := by
  induction l with
  | nil => cases h rfl
  | cons t rest ih =>
    cases rest with
    | nil => rfl
    | cons t1 ts =>
      have e1 : (t :: t1 :: ts) ++ [x] = t :: t1 :: (ts ++ [x]) := rfl
      have e2 : t1 :: (ts ++ [x]) = (t1 :: ts) ++ [x] := rfl
      rw [e1, joinWith_cons_cons sep t t1 (ts ++ [x]), e2, ih (by simp),
        joinWith_cons_cons sep t t1 ts]
      simp

theorem mem_joinWith {sep : Char} {parts : List Str} {c : Char}
    (h : c ∈ joinWith sep parts) : c = sep ∨ ∃ t ∈ parts, c ∈ t := by
  induction parts with
  | nil => cases h
  | cons t rest ih =>
    cases rest with
    | nil => exact Or.inr ⟨t, List.mem_cons_self t [], h⟩
    | cons t1 ts =>
      rw [joinWith_cons_cons] at h
      rcases List.mem_append.mp h with h | h
      · exact Or.inr ⟨t, List.mem_cons_self t _, h⟩
      · rcases List.mem_cons.mp h with rfl | h
        · exact Or.inl rfl
        · rcases ih h with h | ⟨u, hu, hc⟩
          · exact Or.inl h
          · exact Or.inr ⟨u, List.mem_cons_of_mem _ hu, hc⟩

theorem joinWith_length (sep : Char) (parts : List Str) :
    (joinWith sep parts).length = (parts.map List.length).sum + (parts.length - 1) := by
  induction parts with
  | nil => rfl
  | cons t rest ih =>
    cases rest with
    | nil => simp [joinWith]
    | cons t1 ts =>
      rw [joinWith_cons_cons]
      simp only [List.length_append, List.length_cons, List.map_cons, List.sum_cons] at ih ⊢
      omega

theorem joinWith_countP (p : Char → Bool) (sep : Char) (parts : List Str) :
    (joinWith sep parts).countP p =
      (parts.map (List.countP p)).sum +
        (parts.length - 1) * (if p sep then 1 else 0) := by
  by_cases hp : p sep = true
  · rw [if_pos hp]
    induction parts with
    | nil => rw [show joinWith sep ([] : List Str) = [] from rfl]; simp
    | cons t rest ih =>
      cases rest with
      | nil => simp [joinWith]
      | cons t1 ts =>
        rw [joinWith_cons_cons, List.countP_append, List.countP_cons, if_pos hp, ih]
        simp only [List.map_cons, List.sum_cons, List.length_cons]
        omega
  · rw [if_neg hp]
    induction parts with
    | nil => rw [show joinWith sep ([] : List Str) = [] from rfl]; simp
    | cons t rest ih =>
      cases rest with
      | nil => simp [joinWith]
      | cons t1 ts =>
        rw [joinWith_cons_cons, List.countP_append, List.countP_cons, if_neg hp, ih]
        simp only [List.map_cons, List.sum_cons, List.length_cons]
        omega

/-!  Lemmas about the dict operations.  -/

theorem alookup_mem {κ β : Type} [DecidableEq κ] {k : κ} {v : β}
    {l : List (κ × β)} (h : alookup k l = some v) : (k, v) ∈ l := by
  induction l with
  | nil => cases h
  | cons p t ih =>
    rcases p with ⟨k1, v1⟩
    by_cases he : k1 = k
    · subst he
      rw [alookup, if_pos rfl] at h
      rcases Option.some.inj h with rfl
      exact List.mem_cons_self _ _
    · rw [alookup, if_neg he] at h
      exact List.mem_cons_of_mem _ (ih h)

theorem alookup_eq_some_of_mem {κ β : Type} [DecidableEq κ] :
    ∀ {l : List (κ × β)}, (l.map Prod.fst).Nodup →
      ∀ {k : κ} {v : β}, (k, v) ∈ l → alookup k l = some v := by
  intro l
  induction l with
  | nil => intro _ k v h; cases h
  | cons p t ih =>
    intro hnd k v h
    rcases p with ⟨k1, v1⟩
    rw [List.map_cons, List.nodup_cons] at hnd
    rcases List.mem_cons.mp h with he | hm
    · injection he with e1 e2
      subst e1
      subst e2
      rw [alookup, if_pos rfl]
    · have hk : k1 ≠ k := by
        intro e
        subst e
        exact hnd.1 (List.mem_map.mpr ⟨(k1, v), hm, rfl⟩)
      rw [alookup, if_neg hk]
      exact ih hnd.2 hm

theorem alookup_isSome_iff {κ β : Type} [DecidableEq κ] (k : κ) :
    ∀ l : List (κ × β), (alookup k l).isSome = true ↔ k ∈ l.map Prod.fst := by
  intro l
  induction l with
  | nil => simp [alookup]
  | cons p t ih =>
    rcases p with ⟨k1, v1⟩
    by_cases he : k1 = k
    · subst he
      rw [alookup, if_pos rfl]
      simp
    · rw [alookup, if_neg he]
      simp only [List.map_cons, List.mem_cons]
      rw [ih]
      constructor
      · exact fun h => Or.inr h
      · rintro (rfl | h)
        · cases he rfl
        · exact h

theorem alookup_perm {κ β : Type} [DecidableEq κ] {l1 l2 : List (κ × β)}
    (hp : l1.Perm l2) (hnd : (l2.map Prod.fst).Nodup) (k : κ) :
    alookup k l1 = alookup k l2 := by
  have hnd1 : (l1.map Prod.fst).Nodup := ((hp.map Prod.fst).nodup_iff).mpr hnd
  cases h2 : alookup k l2 with
  | some v =>
    exact alookup_eq_some_of_mem hnd1 (hp.mem_iff.mpr (alookup_mem h2))
  | none =>
    cases h1 : alookup k l1 with
    | none => rfl
    | some v =>
      have := alookup_eq_some_of_mem hnd ((hp.mem_iff).mp (alookup_mem h1))
      rw [h2] at this
      cases this

theorem dictInsert_fresh {κ β : Type} [DecidableEq κ] {l : List (κ × β)}
    {k : κ} (v : β) (h : k ∉ l.map Prod.fst) : dictInsert l k v = l ++ [(k, v)] := by
  induction l with
  | nil => rfl
  | cons p t ih =>
    rcases p with ⟨k1, v1⟩
    simp only [List.map_cons, List.mem_cons] at h
    push_neg at h
    rw [dictInsert, if_neg (fun e => h.1 e.symm), ih h.2]
    rfl

theorem mem_keys_dictInsert {κ β : Type} [DecidableEq κ]
    (l : List (κ × β)) (k : κ) (v : β) (j : κ) :
    j ∈ (dictInsert l k v).map Prod.fst ↔ j ∈ l.map Prod.fst ∨ j = k := by
  induction l with
  | nil => simp [dictInsert]
  | cons p t ih =>
    rcases p with ⟨k1, v1⟩
    by_cases he : k1 = k
    · subst he
      rw [dictInsert, if_pos rfl]
      simp only [List.map_cons, List.mem_cons]
      constructor
      · rintro (rfl | h)
        · exact Or.inr rfl
        · exact Or.inl (Or.inr h)
      · rintro ((rfl | h) | rfl)
        · exact Or.inl rfl
        · exact Or.inr h
        · exact Or.inl rfl
    · rw [dictInsert, if_neg he]
      simp only [List.map_cons, List.mem_cons]
      rw [ih]
      tauto

theorem dictInsert_vals {κ β : Type} [DecidableEq κ] (P : β → Prop)
    {l : List (κ × β)} {k : κ} {v : β} (hl : ∀ p ∈ l, P p.2) (hv : P v) :
    ∀ p ∈ dictInsert l k v, P p.2 := by
  induction l with
  | nil =>
    intro p hp
    rcases List.mem_singleton.mp hp with rfl
    exact hv
  | cons q t ih =>
    rcases q with ⟨k1, v1⟩
    intro p hp
    by_cases he : k1 = k
    · subst he
      rw [dictInsert, if_pos rfl] at hp
      rcases List.mem_cons.mp hp with rfl | hm
      · exact hv
      · exact hl p (List.mem_cons_of_mem _ hm)
    · rw [dictInsert, if_neg he] at hp
      rcases List.mem_cons.mp hp with rfl | hm
      · exact hl (k1, v1) (List.mem_cons_self _ _)
      · exact ih (fun q hq => hl q (List.mem_cons_of_mem _ hq)) p hm

theorem mem_dictInsert {κ β : Type} [DecidableEq κ] {l : List (κ × β)}
    {k : κ} {v : β} {p : κ × β} (h : p ∈ dictInsert l k v) :
    p = (k, v) ∨ p ∈ l := by
  induction l with
  | nil => exact Or.inl (List.mem_singleton.mp h)
  | cons q t ih =>
    rcases q with ⟨k1, v1⟩
    by_cases he : k1 = k
    · subst he
      rw [dictInsert, if_pos rfl] at h
      rcases List.mem_cons.mp h with rfl | hm
      · exact Or.inl rfl
      · exact Or.inr (List.mem_cons_of_mem _ hm)
    · rw [dictInsert, if_neg he] at h
      rcases List.mem_cons.mp h with rfl | hm
      · exact Or.inr (List.mem_cons_self _ _)
      · rcases ih hm with h1 | h1
        · exact Or.inl h1
        · exact Or.inr (List.mem_cons_of_mem _ h1)

theorem sumVals_cons {κ : Type} (p : κ × Int) (l : List (κ × Int)) :
    sumVals (p :: l) = p.2 + sumVals l := by
  simp [sumVals]

theorem sumVals_addCount {κ : Type} [DecidableEq κ] (l : List (κ × Int))
    (k : κ) (a : Int) : sumVals (addCount l k a) = sumVals l + a := by
  induction l with
  | nil => simp [addCount, sumVals]
  | cons p t ih =>
    rcases p with ⟨k1, v⟩
    by_cases he : k1 = k
    · subst he
      rw [addCount, if_pos rfl, sumVals_cons, sumVals_cons]
      omega
    · rw [addCount, if_neg he, sumVals_cons, sumVals_cons, ih]
      omega

theorem addCount_vals_zero {κ : Type} [DecidableEq κ] {l : List (κ × Int)}
    {k : κ} (hl : ∀ p ∈ l, p.2 = 0) : ∀ p ∈ addCount l k 0, p.2 = 0 := by
  induction l with
  | nil =>
    intro p hp
    rcases List.mem_singleton.mp hp with rfl
    rfl
  | cons q t ih =>
    rcases q with ⟨k1, v⟩
    intro p hp
    by_cases he : k1 = k
    · subst he
      rw [addCount, if_pos rfl] at hp
      rcases List.mem_cons.mp hp with rfl | hm
      · have : v = 0 := hl (k1, v) (List.mem_cons_self _ _)
        simp [this]
      · exact hl p (List.mem_cons_of_mem _ hm)
    · rw [addCount, if_neg he] at hp
      rcases List.mem_cons.mp hp with rfl | hm
      · exact hl (k1, v) (List.mem_cons_self _ _)
      · exact ih (fun q hq => hl q (List.mem_cons_of_mem _ hq)) p hm

theorem alookup_addGroup {κ ρ : Type} [DecidableEq κ]
    (gs : List (κ × List ρ)) (k : κ) (r : ρ) (c : κ) :
    alookup c (addGroup gs k r) =
      if c = k then some ((alookup c gs).getD [] ++ [r]) else alookup c gs := by
  induction gs with
  | nil =>
    by_cases hc : c = k
    · subst hc
      rw [addGroup, if_pos rfl]
      simp [alookup]
    · rw [addGroup]
      rw [show alookup c [(k, [r])] = if k = c then some [r] else alookup c [] from rfl]
      rw [if_neg (fun e => hc e.symm), if_neg hc]
  | cons p t ih =>
    rcases p with ⟨k1, l⟩
    by_cases h1 : k1 = k
    · subst h1
      rw [addGroup, if_pos rfl]
      by_cases hc : k1 = c
      · subst hc
        rw [show alookup k1 ((k1, l ++ [r]) :: t) = some (l ++ [r]) from by
          rw [alookup, if_pos rfl]]
        rw [if_pos rfl]
        rw [show alookup k1 ((k1, l) :: t) = some l from by rw [alookup, if_pos rfl]]
        rfl
      · rw [show alookup c ((k1, l ++ [r]) :: t) = alookup c t from by
          rw [alookup, if_neg hc]]
        rw [if_neg (fun e => hc (by rw [e]))]
        rw [alookup, if_neg hc]
    · rw [addGroup, if_neg h1]
      by_cases hc : k1 = c
      · subst hc
        rw [alookup, if_pos rfl]
        rw [if_neg (fun e => h1 (by rw [e]))]
        rw [alookup, if_pos rfl]
      · rw [alookup, if_neg hc, ih]
        by_cases hck : c = k
        · rw [if_pos hck, if_pos hck, alookup, if_neg hc]
        · rw [if_neg hck, if_neg hck, alookup, if_neg hc]

theorem addGroup_keys {κ ρ : Type} [DecidableEq κ]
    (gs : List (κ × List ρ)) (k : κ) (r : ρ) :
    (addGroup gs k r).map Prod.fst =
      if k ∈ gs.map Prod.fst then gs.map Prod.fst else gs.map Prod.fst ++ [k] := by
  induction gs with
  | nil => simp [addGroup]
  | cons p t ih =>
    rcases p with ⟨k1, l⟩
    by_cases h1 : k1 = k
    · subst h1
      rw [addGroup, if_pos rfl]
      simp
    · rw [addGroup, if_neg h1]
      simp only [List.map_cons, List.mem_cons]
      rw [ih]
      by_cases hm : k ∈ t.map Prod.fst
      · rw [if_pos hm, if_pos (Or.inr hm)]
      · rw [if_neg hm, if_neg (by rintro (e | h); exact h1 e.symm; exact hm h)]
        rfl

theorem addGroup_keys_nodup {κ ρ : Type} [DecidableEq κ]
    {gs : List (κ × List ρ)} (k : κ) (r : ρ)
    (h : (gs.map Prod.fst).Nodup) : ((addGroup gs k r).map Prod.fst).Nodup := by
  rw [addGroup_keys]
  by_cases hm : k ∈ gs.map Prod.fst
  · rw [if_pos hm]; exact h
  · rw [if_neg hm]
    simp [List.nodup_append, h, hm]

theorem optExtend_nil {ρ : Type} (o : Option (List ρ)) : optExtend o [] = o := by
  cases o <;> simp [optExtend]

theorem optExtend_push {ρ : Type} (o : Option (List ρ)) (r : ρ) (l : List ρ) :
    optExtend (some (o.getD [] ++ [r])) l = optExtend o (r :: l) := by
  cases o with
  | some x =>
    show some ((x ++ [r]) ++ l) = some (x ++ r :: l)
    rw [List.append_assoc]
    rfl
  | none =>
    show some (([] ++ [r]) ++ l) = _
    cases l <;> rfl

/-!  Lemmas about the fixed timestamp pattern.  -/

theorem fmt2_digits (n : Nat) : ∀ c ∈ fmt2 n, isDigitCh c = true :=
  padZeros_digits 2 (natToChars_digits n)

theorem fmt4_digits (n : Nat) : ∀ c ∈ fmt4 n, isDigitCh c = true :=
  padZeros_digits 4 (natToChars_digits n)

theorem fmt6_digits (n : Nat) : ∀ c ∈ fmt6 n, isDigitCh c = true :=
  padZeros_digits 6 (natToChars_digits n)

theorem parseNatDigits_fmt2 (n : Nat) : parseNatDigits (fmt2 n) = some n :=
  parseNatDigits_padZeros 2 n

theorem parseNatDigits_fmt4 (n : Nat) : parseNatDigits (fmt4 n) = some n :=
  parseNatDigits_padZeros 4 n

theorem parseNatDigits_fmt6 (n : Nat) : parseNatDigits (fmt6 n) = some n :=
  parseNatDigits_padZeros 6 n

theorem mem_append_cons_cases {c x : Char} {u v : Str}
    (h : c ∈ u ++ x :: v) : c ∈ u ∨ c = x ∨ c ∈ v := by
  rcases List.mem_append.mp h with h | h
  · exact Or.inl h
  · rcases List.mem_cons.mp h with h | h
    · exact Or.inr (Or.inl h)
    · exact Or.inr (Or.inr h)

theorem strftime_chars (t : DateTime) :
    ∀ c ∈ strftimeFmt t,
      isDigitCh c = true ∨ c = '.' ∨ c = '-' ∨ c = ':' := by
  intro c hc
  unfold strftimeFmt at hc
  rcases mem_append_cons_cases hc with h | rfl | h
  · exact Or.inl (fmt2_digits _ c h)
  · exact Or.inr (Or.inl rfl)
  rcases mem_append_cons_cases h with h | rfl | h
  · exact Or.inl (fmt2_digits _ c h)
  · exact Or.inr (Or.inl rfl)
  rcases mem_append_cons_cases h with h | rfl | h
  · exact Or.inl (fmt4_digits _ c h)
  · exact Or.inr (Or.inr (Or.inl rfl))
  rcases mem_append_cons_cases h with h | rfl | h
  · exact Or.inl (fmt2_digits _ c h)
  · exact Or.inr (Or.inr (Or.inr rfl))
  rcases mem_append_cons_cases h with h | rfl | h
  · exact Or.inl (fmt2_digits _ c h)
  · exact Or.inr (Or.inr (Or.inr rfl))
  rcases mem_append_cons_cases h with h | rfl | h
  · exact Or.inl (fmt2_digits _ c h)
  · exact Or.inr (Or.inr (Or.inr rfl))
  exact Or.inl (fmt6_digits _ c h)

theorem strftime_no_ws (t : DateTime) :
    ∀ c ∈ strftimeFmt t, isWsCh c = false := by
  intro c hc
  rcases strftime_chars t c hc with h | rfl | rfl | rfl
  · exact digit_not_ws h
  · decide
  · decide
  · decide

theorem strftime_no_eq (t : DateTime) : '=' ∉ strftimeFmt t := by
  intro hc
  rcases strftime_chars t '=' hc with h | h | h | h
  · exact absurd h (by decide)
  · exact absurd h (by decide)
  · exact absurd h (by decide)
  · exact absurd h (by decide)

theorem strptime_strftime (t : DateTime) (ht : t.Valid) :
    strptimeFmt (strftimeFmt t) = some t := by
  obtain ⟨h1, h2, h3, h4, h5, h6, h7, h8, h9, h10⟩ := ht
  have nd2 : ∀ (n : Nat) (x : Char), isDigitCh x = false → x ∉ fmt2 n := by
    intro n x hx hm
    rw [fmt2_digits n x hm] at hx
    cases hx
  set T : Str := fmt2 t.hour ++ ':' :: (fmt2 t.minute ++ ':' ::
    (fmt2 t.second ++ ':' :: fmt6 t.micro)) with hT
  set R : Str := fmt4 t.year ++ '-' :: T with hR
  have hTchars : ∀ c ∈ T, isDigitCh c = true ∨ c = ':' := by
    intro c hc
    rw [hT] at hc
    rcases mem_append_cons_cases hc with h | rfl | h
    · exact Or.inl (fmt2_digits _ c h)
    · exact Or.inr rfl
    rcases mem_append_cons_cases h with h | rfl | h
    · exact Or.inl (fmt2_digits _ c h)
    · exact Or.inr rfl
    rcases mem_append_cons_cases h with h | rfl | h
    · exact Or.inl (fmt2_digits _ c h)
    · exact Or.inr rfl
    exact Or.inl (fmt6_digits _ c h)
  have hRchars : ∀ c ∈ R, isDigitCh c = true ∨ c = '-' ∨ c = ':' := by
    intro c hc
    rw [hR] at hc
    rcases mem_append_cons_cases hc with h | rfl | h
    · exact Or.inl (fmt4_digits _ c h)
    · exact Or.inr (Or.inl rfl)
    rcases hTchars c h with h | rfl
    · exact Or.inl h
    · exact Or.inr (Or.inr rfl)
  have hdotR : '.' ∉ R := by
    intro hm
    rcases hRchars '.' hm with h | h | h
    · exact absurd h (by decide)
    · exact absurd h (by decide)
    · exact absurd h (by decide)
  have eshape : strftimeFmt t = fmt2 t.day ++ '.' :: (fmt2 t.month ++ '.' :: R) := by
    rw [hR, hT]
    rfl
  have e1 : splitOnCh '.' (strftimeFmt t) = [fmt2 t.day, fmt2 t.month, R] := by
    rw [eshape, splitOnCh_append '.' _ _ (nd2 t.day '.' (by decide)),
      splitOnCh_append '.' _ _ (nd2 t.month '.' (by decide)),
      splitOnCh_not_mem hdotR]
  have hdash4 : '-' ∉ fmt4 t.year := by
    intro hm
    have := fmt4_digits t.year '-' hm
    exact absurd this (by decide)
  have hdashT : '-' ∉ T := by
    intro hm
    rcases hTchars '-' hm with h | h
    · exact absurd h (by decide)
    · exact absurd h (by decide)
  have e2 : splitOnCh '-' R = [fmt4 t.year, T] := by
    rw [hR, splitOnCh_append '-' _ _ hdash4, splitOnCh_not_mem hdashT]
  have hcol6 : ':' ∉ fmt6 t.micro := by
    intro hm
    have := fmt6_digits t.micro ':' hm
    exact absurd this (by decide)
  have e3 : splitOnCh ':' T =
      [fmt2 t.hour, fmt2 t.minute, fmt2 t.second, fmt6 t.micro] := by
    rw [hT, splitOnCh_append ':' _ _ (nd2 t.hour ':' (by decide)),
      splitOnCh_append ':' _ _ (nd2 t.minute ':' (by decide)),
      splitOnCh_append ':' _ _ (nd2 t.second ':' (by decide)),
      splitOnCh_not_mem hcol6]
  simp only [strptimeFmt, e1, e2, e3, parseNatDigits_fmt2, parseNatDigits_fmt4,
    parseNatDigits_fmt6]
  rw [if_pos]
  exact ⟨h1, h2, h3, h4, h5, h6, h7, h8, by omega, h10⟩

/-!  Lemmas about store_results and the read_results parser.  -/

theorem intToChars_no_ws (i : Int) : ∀ c ∈ intToChars i, isWsCh c = false := by
  intro c hc
  rcases intToChars_chars i c hc with h | rfl
  · exact digit_not_ws h
  · decide

theorem eq_not_in_intToChars (i : Int) : '=' ∉ intToChars i := by
  intro hc
  rcases intToChars_chars i '=' hc with h | h
  · exact absurd h (by decide)
  · exact absurd h (by decide)

theorem store_tokens_ne_nil (rq : List (Int × Int)) (t : DateTime) :
    ∀ tk ∈ store_tokens rq t, tk ≠ [] := by
  intro tk htk
  rcases List.mem_cons.mp htk with rfl | hm
  · simp
  · rcases List.mem_map.mp hm with ⟨p, _, rfl⟩
    simp

theorem store_tokens_no_ws (rq : List (Int × Int)) (t : DateTime) :
    ∀ tk ∈ store_tokens rq t, ∀ c ∈ tk, isWsCh c = false := by
  intro tk htk c hc
  rcases List.mem_cons.mp htk with rfl | hm
  · rcases mem_append_cons_cases hc with h | rfl | h
    · simp only [List.mem_cons, List.mem_singleton, List.not_mem_nil, or_false] at h
      rcases h with rfl | rfl | rfl | rfl <;> decide
    · decide
    · exact strftime_no_ws t c h
  · rcases List.mem_map.mp hm with ⟨p, _, rfl⟩
    rcases mem_append_cons_cases hc with h | rfl | h
    · exact intToChars_no_ws _ c h
    · decide
    · exact intToChars_no_ws _ c h

theorem store_tokens_no_nl (rq : List (Int × Int)) (t : DateTime) :
    ∀ tk ∈ store_tokens rq t, '\n' ∉ tk := by
  intro tk htk hc
  have := store_tokens_no_ws rq t tk htk '\n' hc
  exact absurd this (by decide)

theorem store_results_shape (rq : List (Int × Int)) (t : DateTime) :
    store_results rq t = joinWith ' ' (store_tokens rq t) ++ [' ', '\n'] := by
  unfold store_results
  rw [joinWith_append_last ' ' _ _ (by unfold store_tokens; simp)]

theorem pySplitWs_store (rq : List (Int × Int)) (t : DateTime) :
    pySplitWs (store_results rq t) = store_tokens rq t := by
  rw [store_results_shape]
  exact pySplitWs_join_tokens _ (store_tokens_ne_nil rq t)
    (store_tokens_no_ws rq t) (by unfold store_tokens; simp)

theorem parse_token_time (mapping : Int → Option Str) (st : ResultEntry)
    (t : DateTime) (ht : t.Valid) :
    parse_token mapping st (['t', 'i', 'm', 'e'] ++ '=' :: strftimeFmt t) =
      some { st with time := some t } := by
  have e : splitOnCh '=' ('t' :: 'i' :: 'm' :: 'e' :: '=' :: strftimeFmt t) =
      [['t', 'i', 'm', 'e'], strftimeFmt t] := by
    rw [show 't' :: 'i' :: 'm' :: 'e' :: '=' :: strftimeFmt t =
      ['t', 'i', 'm', 'e'] ++ '=' :: strftimeFmt t from rfl]
    rw [splitOnCh_append '=' _ _ (by decide), splitOnCh_not_mem (strftime_no_eq t)]
  simp [parse_token, e, strptime_strftime t ht]

theorem parse_token_q (mapping : Int → Option Str) (st : ResultEntry)
    (k a : Int) (cat : Str) (hcat : mapping k = some cat) :
    parse_token mapping st (intToChars k ++ '=' :: intToChars a) =
      some { st with
              result_q := dictInsert st.result_q k a,
              result_c := addCount st.result_c cat a } := by
  have e : splitOnCh '=' (intToChars k ++ '=' :: intToChars a) =
      [intToChars k, intToChars a] := by
    rw [splitOnCh_append '=' _ _ (eq_not_in_intToChars k),
      splitOnCh_not_mem (eq_not_in_intToChars a)]
  simp only [parse_token, e, if_neg (intToChars_ne_time k),
    parseIntChars_intToChars, hcat]

theorem parseTokens_q_all (mapping : Int → Option Str) (ps : List (Int × Int)) :
    ∀ st : ResultEntry,
      ((st.result_q.map Prod.fst ++ ps.map Prod.fst).Nodup) →
      (∀ p ∈ ps, (mapping p.1).isSome = true) →
      ∃ rc, parseTokens mapping st
          (ps.map (fun p => intToChars p.1 ++ '=' :: intToChars p.2)) =
            some ⟨st.time, st.result_q ++ ps, rc⟩ ∧
        sumVals rc = sumVals st.result_c + (ps.map Prod.snd).sum := by
  induction ps with
  | nil =>
    intro st hnd hmap
    refine ⟨st.result_c, ?_, by simp⟩
    simp [parseTokens]
  | cons p ps ih =>
    intro st hnd hmap
    obtain ⟨cat, hcat⟩ := Option.isSome_iff_exists.mp
      (hmap p (List.mem_cons_self p ps))
    have hfresh : p.1 ∉ st.result_q.map Prod.fst := by
      have hd := (List.nodup_append.mp hnd).2.2
      intro hm
      exact hd hm (List.mem_cons_self _ _)
    have hins : dictInsert st.result_q p.1 p.2 = st.result_q ++ [p] := by
      rw [dictInsert_fresh p.2 hfresh]
    have hstep : parseTokens mapping st
        ((p :: ps).map (fun p => intToChars p.1 ++ '=' :: intToChars p.2)) =
        parseTokens mapping
          ⟨st.time, st.result_q ++ [p], addCount st.result_c cat p.2⟩
          (ps.map (fun p => intToChars p.1 ++ '=' :: intToChars p.2)) := by
      rw [List.map_cons, parseTokens, parse_token_q mapping st p.1 p.2 cat hcat]
      rw [hins]
    have hnd1 : (((st.result_q ++ [p]).map Prod.fst) ++ ps.map Prod.fst).Nodup := by
      rw [List.map_append]
      have e : (st.result_q.map Prod.fst ++ [p].map Prod.fst) ++ ps.map Prod.fst =
          st.result_q.map Prod.fst ++ ((p :: ps).map Prod.fst) := by
        rw [List.append_assoc]
        rfl
      rw [e]
      exact hnd
    obtain ⟨rc, hrc, hsum⟩ := ih ⟨st.time, st.result_q ++ [p], addCount st.result_c cat p.2⟩
      hnd1 (fun q hq => hmap q (List.mem_cons_of_mem _ hq))
    refine ⟨rc, ?_, ?_⟩
    · rw [hstep, hrc]
      simp
    · rw [hsum, sumVals_addCount]
      simp only [List.map_cons, List.sum_cons]
      omega

theorem parse_store (mapping : Int → Option Str) (rq : List (Int × Int))
    (t : DateTime) (hnd : (rq.map Prod.fst).Nodup)
    (hmap : ∀ p ∈ rq, (mapping p.1).isSome = true) (ht : t.Valid) :
    ∃ rc, parse_line mapping (store_results rq t) =
        some ⟨some t, sortPairs rq, rc⟩ ∧
      sumVals rc = ((sortPairs rq).map Prod.snd).sum := by
  have hperm : (sortPairs rq).Perm rq := List.perm_insertionSort pairLe rq
  have hnds : ((sortPairs rq).map Prod.fst).Nodup :=
    ((hperm.map Prod.fst).nodup_iff).mpr hnd
  have hmaps : ∀ p ∈ sortPairs rq, (mapping p.1).isSome = true :=
    fun p hp => hmap p (hperm.subset hp)
  have hline : parse_line mapping (store_results rq t) =
      parseTokens mapping ⟨some t, [], []⟩
        ((sortPairs rq).map (fun p => intToChars p.1 ++ '=' :: intToChars p.2)) := by
    unfold parse_line
    rw [pySplitWs_store]
    unfold store_tokens
    rw [parseTokens, parse_token_time mapping _ t ht]
  obtain ⟨rc, hrc, hsum⟩ := parseTokens_q_all mapping (sortPairs rq)
    ⟨some t, [], []⟩ (by simpa using hnds) hmaps
  refine ⟨rc, ?_, ?_⟩
  · rw [hline, hrc]
    simp
  · rw [hsum]
    simp [sumVals]

theorem read_results_append (mapping : Int → Option Str) (l1 l2 : List Str)
    (r1 r2 : List ResultEntry) (h1 : read_results mapping l1 = some r1)
    (h2 : read_results mapping l2 = some r2) :
    read_results mapping (l1 ++ l2) = some (r1 ++ r2) := by
  induction l1 generalizing r1 with
  | nil =>
    rw [read_results] at h1
    rcases Option.some.inj h1 with rfl
    simpa using h2
  | cons l ls ih =>
    rw [read_results] at h1
    cases hl : parse_line mapping l with
    | none => rw [hl] at h1; cases h1
    | some e =>
      rw [hl] at h1
      cases hr : read_results mapping ls with
      | none => rw [hr] at h1; cases h1
      | some es =>
        rw [hr] at h1
        rcases Option.some.inj h1 with rfl
        show read_results mapping (l :: (ls ++ l2)) = _
        rw [read_results, hl, ih es hr]
        rfl

theorem read_results_single (mapping : Int → Option Str) (l : Str)
    (e : ResultEntry) (h : parse_line mapping l = some e) :
    read_results mapping [l] = some [e] := by
  rw [read_results, h]
  rfl

/-!  Claim C1: append then read round-trips the session.  -/

/-- C1.  For every session (answers with distinct question ids, all known to
the category mapping, and a valid timestamp), appending the line written by
store_results to a results file that reads back as rs and then parsing the
whole file with read_results yields exactly one new session at the end; its
per-question answers agree with the appended mapping on every question id,
and its timestamp equals the appended one (the DateTime model carries
microsecond precision, which is exactly the precision of the fixed pattern,
so truncation to the pattern precision is the identity). -/
theorem c1_append_read_roundtrip (mapping : Int → Option Str)
    (prev : List Str) (rs : List ResultEntry) (rq : List (Int × Int))
    (t : DateTime) (hprev : read_results mapping prev = some rs)
    (hnd : (rq.map Prod.fst).Nodup)
    (hmap : ∀ p ∈ rq, (mapping p.1).isSome = true) (ht : t.Valid) :
    ∃ e, read_results mapping (prev ++ [store_results rq t]) = some (rs ++ [e]) ∧
      e.time = some t ∧ ∀ k : Int, alookup k e.result_q = alookup k rq := by
  obtain ⟨rc, hline, _⟩ := parse_store mapping rq t hnd hmap ht
  refine ⟨⟨some t, sortPairs rq, rc⟩, ?_, rfl, ?_⟩
  · exact read_results_append mapping prev _ rs _ hprev
      (read_results_single mapping _ _ hline)
  · intro k
    exact alookup_perm (List.perm_insertionSort pairLe rq) hnd k

theorem c1_witness :
    read_results sampleMap [] = some [] ∧
    (sampleRq.map Prod.fst).Nodup ∧
    (∀ p ∈ sampleRq, (sampleMap p.1).isSome = true) ∧
    sampleTime.Valid ∧
    ∃ e, read_results sampleMap ([] ++ [store_results sampleRq sampleTime]) =
        some ([] ++ [e]) ∧
      e.time = some sampleTime ∧
      ∀ k : Int, alookup k e.result_q = alookup k sampleRq :=
  ⟨rfl, by decide, by decide, by decide,
    c1_append_read_roundtrip sampleMap [] [] sampleRq sampleTime rfl
      (by decide) (by decide) (by decide)⟩

/-!  Claim C2: the exact line written by store_results.  -/

/-- C2 counterexample.  The line written by store_results is not the
space-join of its tokens followed directly by a newline: for the empty
session the written line is time=... space newline, with a space before the
newline, because the newline is appended to the token list before joining. -/
theorem c2_counterexample :
    store_results [] sampleTime ≠
      joinWith ' ' (store_tokens [] sampleTime) ++ ['\n'] := by
  decide

/-- C2 amended.  store_results writes exactly one line consisting of the
time token followed by one id=answer token per question in ascending id
order, space-separated, with a trailing space before the terminating
newline; the written string holds exactly one newline character. -/
theorem c2_amended (rq : List (Int × Int)) (t : DateTime) :
    store_results rq t = joinWith ' ' (store_tokens rq t) ++ [' ', '\n'] ∧
    List.Sorted (· ≤ ·) ((sortPairs rq).map Prod.fst) ∧
    List.count '\n' (store_results rq t) = 1 := by
  refine ⟨store_results_shape rq t, ?_, ?_⟩
  · have hs : List.Sorted pairLe (sortPairs rq) :=
      List.sorted_insertionSort pairLe rq
    exact List.Pairwise.map Prod.fst (fun a b h => h) hs
  · rw [store_results_shape, List.count_append]
    have h0 : List.count '\n' (joinWith ' ' (store_tokens rq t)) = 0 := by
      rw [List.count_eq_zero]
      intro hm
      rcases mem_joinWith hm with h | ⟨tk, htk, hc⟩
      · cases h
      · exact store_tokens_no_nl rq t tk htk hc
    rw [h0]
    rfl

/-!  Claim C3: category totals versus answer totals.  -/

/-- C3 counterexample.  On the results line 0=1 0=2, which repeats a
question id, read_results returns a session whose category totals sum to 3
while its per-question answers sum to 2: the dict assignment overwrites the
earlier answer but the category counter accumulates both. -/
theorem c3_counterexample :
    ∃ e, read_results sampleMap [sampleLineDup] = some [e] ∧
      sumVals e.result_c ≠ sumVals e.result_q :=
  ⟨⟨none, [(0, 2)], [(mentalStr, 3)]⟩, by decide, by decide⟩

/-- C3 amended.  For every session whose line was produced by store_results
from answers with pairwise-distinct question ids (as the dict of a real
session guarantees), the session read back has category totals summing to
the same value as its per-question answers. -/
theorem c3_amended (mapping : Int → Option Str) (rq : List (Int × Int))
    (t : DateTime) (hnd : (rq.map Prod.fst).Nodup)
    (hmap : ∀ p ∈ rq, (mapping p.1).isSome = true) (ht : t.Valid) :
    ∃ e, read_results mapping [store_results rq t] = some [e] ∧
      sumVals e.result_c = sumVals e.result_q := by
  obtain ⟨rc, hline, hsum⟩ := parse_store mapping rq t hnd hmap ht
  refine ⟨⟨some t, sortPairs rq, rc⟩, read_results_single mapping _ _ hline, ?_⟩
  rw [hsum]
  rfl

theorem c3_witness :
    (sampleRq.map Prod.fst).Nodup ∧
    (∀ p ∈ sampleRq, (sampleMap p.1).isSome = true) ∧
    sampleTime.Valid ∧
    ∃ e, read_results sampleMap [store_results sampleRq sampleTime] = some [e] ∧
      sumVals e.result_c = sumVals e.result_q :=
  ⟨by decide, by decide, by decide,
    c3_amended sampleMap sampleRq sampleTime (by decide) (by decide) (by decide)⟩

/-!  Claim C7: lines without a time token.  -/

theorem parseTokens_no_time (mapping : Int → Option Str) (toks : List Str) :
    ∀ st : ResultEntry, (∀ tk ∈ toks, GoodTok mapping tk) →
      ∃ e, parseTokens mapping st toks = some e ∧ e.time = st.time := by
  induction toks with
  | nil =>
    intro st _
    exact ⟨st, rfl, rfl⟩
  | cons tk toks ih =>
    intro st h
    obtain ⟨k, v, rest, i, a, hsplit, hkt, hik, hia, him⟩ :=
      h tk (List.mem_cons_self tk toks)
    obtain ⟨cat, hcat⟩ := Option.isSome_iff_exists.mp him
    have hstep : parse_token mapping st tk =
        some { st with
                result_q := dictInsert st.result_q i a,
                result_c := addCount st.result_c cat a } := by
      simp only [parse_token, hsplit, if_neg hkt, hik, hia, hcat]
    obtain ⟨e, he, het⟩ := ih { st with
        result_q := dictInsert st.result_q i a,
        result_c := addCount st.result_c cat a }
      (fun x hx => h x (List.mem_cons_of_mem _ hx))
    refine ⟨e, ?_, het⟩
    rw [parseTokens, hstep]
    exact he

/-- C7.  A results-file line all of whose tokens are well-formed answer
tokens and none of which has the key time still yields a session from
read_results, and that session keeps the sentinel None timestamp: the time
slot is initialised to None and only a time token ever assigns it. -/
theorem c7_missing_time (mapping : Int → Option Str) (line : Str)
    (h : ∀ tk ∈ pySplitWs line, GoodTok mapping tk) :
    ∃ e, read_results mapping [line] = some [e] ∧ e.time = none := by
  obtain ⟨e, he, het⟩ := parseTokens_no_time mapping (pySplitWs line)
    ⟨none, [], []⟩ h
  exact ⟨e, read_results_single mapping _ _ he, het⟩

theorem c7_witness :
    (∀ tk ∈ pySplitWs sampleLineNoTime, GoodTok sampleMap tk) ∧
    ∃ e, read_results sampleMap [sampleLineNoTime] = some [e] ∧ e.time = none := by
  have hs : pySplitWs sampleLineNoTime = [['0', '=', '2'], ['1', '=', '5']] := by
    decide
  have hg : ∀ tk ∈ pySplitWs sampleLineNoTime, GoodTok sampleMap tk := by
    intro tk htk
    rw [hs] at htk
    rcases List.mem_cons.mp htk with rfl | htk
    · exact ⟨['0'], ['2'], [], 0, 2, by decide, by decide, by decide, by decide,
        by decide⟩
    rcases List.mem_singleton.mp htk with rfl
    exact ⟨['1'], ['5'], [], 1, 5, by decide, by decide, by decide, by decide,
      by decide⟩
  exact ⟨hg, c7_missing_time sampleMap sampleLineNoTime hg⟩

/-!  Claim C8: read_scorings.  -/

theorem scoringLine_eq2 (acc : List (Str × Int)) (line s0 s1 : Str)
    (rest : List Str) (hs : splitOnCh '=' line = s0 :: s1 :: rest) :
    scoringLine acc line =
      match parseIntChars (pyStrip s0) with
      | some n => some (dictInsert acc (pyStrip s1) n)
      | none => none := by
  unfold scoringLine
  rw [hs]

theorem scoringLine_single (acc : List (Str × Int)) (line s0 : Str)
    (hs : splitOnCh '=' line = [s0]) : scoringLine acc line = none := by
  unfold scoringLine
  rw [hs]

theorem scoringLine_some_iff (acc : List (Str × Int)) (line : Str) :
    (∃ acc1, scoringLine acc line = some acc1) ↔ ScoringLineOk line := by
  constructor
  · rintro ⟨acc1, h⟩
    cases hs : splitOnCh '=' line with
    | nil => exact absurd hs (splitOnCh_ne_nil '=' line)
    | cons s0 tail =>
      cases tail with
      | nil =>
        rw [scoringLine_single acc line s0 hs] at h
        cases h
      | cons s1 rest =>
        rw [scoringLine_eq2 acc line s0 s1 rest hs] at h
        cases hp : parseIntChars (pyStrip s0) with
        | none => rw [hp] at h; cases h
        | some n => exact ⟨s0, s1, rest, hs, by rw [hp]; rfl⟩
  · rintro ⟨s0, s1, rest, hs, hp⟩
    obtain ⟨n, hn⟩ := Option.isSome_iff_exists.mp hp
    refine ⟨dictInsert acc (pyStrip s1) n, ?_⟩
    rw [scoringLine_eq2 acc line s0 s1 rest hs, hn]

theorem scoringLine_none_of_not_ok (acc : List (Str × Int)) (line : Str)
    (h : ¬ ScoringLineOk line) : scoringLine acc line = none := by
  cases hs : scoringLine acc line with
  | none => rfl
  | some acc1 =>
    exact absurd ((scoringLine_some_iff acc line).mp ⟨acc1, hs⟩) h

theorem readScoringsAux_isSome (ls : List Str) :
    ∀ acc : List (Str × Int),
      ((readScoringsAux acc ls).isSome = true ↔ ∀ l ∈ ls, ScoringLineOk l) := by
  induction ls with
  | nil =>
    intro acc
    simp [readScoringsAux]
  | cons l ls ih =>
    intro acc
    by_cases hok : ScoringLineOk l
    · obtain ⟨acc1, h1⟩ := (scoringLine_some_iff acc l).mpr hok
      rw [readScoringsAux, h1]
      rw [show ((match some acc1 with
          | some acc2 => readScoringsAux acc2 ls
          | none => none : Option (List (Str × Int)))) =
        readScoringsAux acc1 ls from rfl]
      rw [ih acc1]
      constructor
      · intro h x hx
        rcases List.mem_cons.mp hx with rfl | hx
        · exact hok
        · exact h x hx
      · intro h x hx
        exact h x (List.mem_cons_of_mem _ hx)
    · rw [readScoringsAux, scoringLine_none_of_not_ok acc l hok]
      simp only [Option.isSome_none, Bool.false_eq_true, false_iff]
      intro hall
      exact hok (hall l (List.mem_cons_self l ls))

theorem readScoringsAux_entries (ls : List Str) :
    ∀ (acc m : List (Str × Int)), readScoringsAux acc ls = some m →
      ∀ p ∈ m, p ∈ acc ∨ ∃ l ∈ ls, ∃ s0 s1 rest,
        splitOnCh '=' l = s0 :: s1 :: rest ∧ p.1 = pyStrip s1 ∧
          parseIntChars (pyStrip s0) = some p.2 := by
  induction ls with
  | nil =>
    intro acc m h p hp
    rw [readScoringsAux] at h
    rcases Option.some.inj h with rfl
    exact Or.inl hp
  | cons l ls ih =>
    intro acc m h p hp
    rw [readScoringsAux] at h
    cases hsl : scoringLine acc l with
    | none => rw [hsl] at h; cases h
    | some acc1 =>
      rw [hsl] at h
      have h2 : readScoringsAux acc1 ls = some m := h
      -- identify the shape of the successful line
      have hok : ScoringLineOk l :=
        (scoringLine_some_iff acc l).mp ⟨acc1, hsl⟩
      obtain ⟨s0, s1, rest, hsp, hpsome⟩ := hok
      obtain ⟨n, hn⟩ := Option.isSome_iff_exists.mp hpsome
      have hacc1 : acc1 = dictInsert acc (pyStrip s1) n := by
        rw [scoringLine_eq2 acc l s0 s1 rest hsp, hn] at hsl
        exact (Option.some.inj hsl).symm
      subst hacc1
      rcases ih _ m h2 p hp with hacc | ⟨l1, hl1, s2, s3, r2, e1, e2, e3⟩
      · rcases mem_dictInsert hacc with rfl | hacc2
        · exact Or.inr ⟨l, List.mem_cons_self l ls, s0, s1, rest, hsp, rfl, hn⟩
        · exact Or.inl hacc2
      · exact Or.inr ⟨l1, List.mem_cons_of_mem _ hl1, s2, s3, r2, e1, e2, e3⟩

/-- C8.  read_scorings succeeds exactly when every line has an equals
delimiter and an integer score field before it (after trimming), and on
success every entry of the produced mapping is a trimmed label paired with
the integer parsed from the score field of one of the lines. -/
theorem c8_read_scorings (ls : List Str) :
    ((read_scorings ls).isSome = true ↔ ∀ l ∈ ls, ScoringLineOk l) ∧
    ∀ m, read_scorings ls = some m → ∀ p ∈ m, ∃ l ∈ ls, ∃ s0 s1 rest,
      splitOnCh '=' l = s0 :: s1 :: rest ∧ p.1 = pyStrip s1 ∧
        parseIntChars (pyStrip s0) = some p.2 := by
  constructor
  · exact readScoringsAux_isSome ls []
  · intro m h p hp
    rcases readScoringsAux_entries ls [] m h p hp with hacc | hg
    · cases hacc
    · exact hg

theorem c8_witness :
    ((read_scorings [['5', ' ', '=', ' ', 'g', 'o', 'o', 'd']]).isSome = true ↔
      ∀ l ∈ [['5', ' ', '=', ' ', 'g', 'o', 'o', 'd']], ScoringLineOk l) ∧
    ∀ m, read_scorings [['5', ' ', '=', ' ', 'g', 'o', 'o', 'd']] = some m →
      ∀ p ∈ m, ∃ l ∈ [['5', ' ', '=', ' ', 'g', 'o', 'o', 'd']],
        ∃ s0 s1 rest, splitOnCh '=' l = s0 :: s1 :: rest ∧
          p.1 = pyStrip s1 ∧ parseIntChars (pyStrip s0) = some p.2 :=
  c8_read_scorings [['5', ' ', '=', ' ', 'g', 'o', 'o', 'd']]

/-!  Claim C10: the alternate script records 0 for every question.  -/

theorem alt_fold_vals (qs : List (Int × Str)) (mp : Int → Str) :
    ∀ acc : List (Int × Int) × List (Str × Int),
      (∀ p ∈ acc.1, p.2 = 0) → (∀ p ∈ acc.2, p.2 = 0) →
      (∀ p ∈ (qs.foldl
          (fun acc q => (dictInsert acc.1 q.1 0, addCount acc.2 (mp q.1) 0))
          acc).1, p.2 = 0) ∧
      (∀ p ∈ (qs.foldl
          (fun acc q => (dictInsert acc.1 q.1 0, addCount acc.2 (mp q.1) 0))
          acc).2, p.2 = 0) ∧
      ∀ j : Int, (j ∈ acc.1.map Prod.fst ∨ ∃ s, (j, s) ∈ qs) →
        j ∈ (qs.foldl
          (fun acc q => (dictInsert acc.1 q.1 0, addCount acc.2 (mp q.1) 0))
          acc).1.map Prod.fst := by
  induction qs with
  | nil =>
    intro acc h1 h2
    refine ⟨h1, h2, ?_⟩
    intro j hj
    rcases hj with hj | ⟨s, hs⟩
    · exact hj
    · cases hs
  | cons q qs ih =>
    intro acc h1 h2
    have h1n : ∀ p ∈ dictInsert acc.1 q.1 0, p.2 = (0 : Int) :=
      dictInsert_vals (fun v => v = 0) h1 rfl
    have h2n : ∀ p ∈ addCount acc.2 (mp q.1) 0, p.2 = (0 : Int) :=
      addCount_vals_zero h2
    obtain ⟨g1, g2, g3⟩ := ih (dictInsert acc.1 q.1 0, addCount acc.2 (mp q.1) 0)
      h1n h2n
    refine ⟨g1, g2, ?_⟩
    intro j hj
    rcases hj with hj | ⟨s, hs⟩
    · exact g3 j (Or.inl ((mem_keys_dictInsert acc.1 q.1 0 j).mpr (Or.inl hj)))
    · rcases List.mem_cons.mp hs with he | hs2
      · have : j = q.1 := by rw [← he]
        exact g3 j (Or.inl ((mem_keys_dictInsert acc.1 q.1 0 j).mpr
          (Or.inr this)))
      · exact g3 j (Or.inr ⟨s, hs2⟩)

/-- C10.  ask_questions of the alternate script assigns the answer 0 to
every question (it never consults any input source): every entry of the
returned per-question dict has value 0, every question id of the catalog is
mapped to 0, and every per-category total is 0. -/
theorem c10_alt_zero_answers (qs : List (Int × Str)) (mp : Int → Str) :
    (∀ p ∈ (Alt.ask_questions qs mp).1, p.2 = 0) ∧
    (∀ i s, (i, s) ∈ qs → alookup i (Alt.ask_questions qs mp).1 = some 0) ∧
    (∀ p ∈ (Alt.ask_questions qs mp).2, p.2 = 0) := by
  obtain ⟨g1, g2, g3⟩ := alt_fold_vals qs mp ([], [])
    (fun p hp => absurd hp (List.not_mem_nil p))
    (fun p hp => absurd hp (List.not_mem_nil p))
  refine ⟨g1, ?_, g2⟩
  intro i s hs
  have hkey : i ∈ (Alt.ask_questions qs mp).1.map Prod.fst :=
    g3 i (Or.inr ⟨s, hs⟩)
  obtain ⟨v, hv⟩ := Option.isSome_iff_exists.mp
    ((alookup_isSome_iff i (Alt.ask_questions qs mp).1).mpr hkey)
  have hv0 : v = 0 := g1 (i, v) (alookup_mem hv)
  rw [hv, hv0]

theorem c10_witness :
    (∀ p ∈ (Alt.ask_questions [(0, ['q']), (1, ['r'])] sampleMapT).1, p.2 = 0) ∧
    (∀ i s, (i, s) ∈ [((0 : Int), ['q']), (1, ['r'])] →
      alookup i (Alt.ask_questions [(0, ['q']), (1, ['r'])] sampleMapT).1 = some 0) ∧
    (∀ p ∈ (Alt.ask_questions [(0, ['q']), (1, ['r'])] sampleMapT).2, p.2 = 0) :=
  c10_alt_zero_answers [(0, ['q']), (1, ['r'])] sampleMapT

/-!  Claim C6: the low-scoring report.  -/

theorem low_groups_fold (qs mp : Int → Str) (rq : List (Int × Int)) :
    ∀ (acc : List (Str × List (Str × Str × Str))) (c : Str),
      alookup c (rq.foldl
        (fun acc p =>
          if p.2 ≤ 3 then addGroup acc (mp p.1) (lowRow qs p) else acc) acc) =
      optExtend (alookup c acc) ((lowFilter rq mp c).map (lowRow qs)) := by
  induction rq with
  | nil =>
    intro acc c
    rw [show lowFilter [] mp c = [] from rfl]
    rw [List.map_nil, optExtend_nil]
    rfl
  | cons p rq ih =>
    intro acc c
    rw [List.foldl_cons]
    by_cases h3 : p.2 ≤ 3
    · rw [if_pos h3, ih]
      rw [alookup_addGroup]
      by_cases hc : mp p.1 = c
      · have hcond : (decide (p.2 ≤ 3) && decide (mp p.1 = c)) = true := by
          simp [h3, hc]
        rw [show lowFilter (p :: rq) mp c =
            p :: lowFilter rq mp c from by
          unfold lowFilter
          rw [List.filter_cons, if_pos hcond]]
        rw [List.map_cons, if_pos hc.symm, optExtend_push]
      · have hcond : (decide (p.2 ≤ 3) && decide (mp p.1 = c)) = false := by
          simp [hc]
        rw [show lowFilter (p :: rq) mp c = lowFilter rq mp c from by
          unfold lowFilter
          rw [List.filter_cons, if_neg (by simp [hcond])]]
        rw [if_neg (fun e => hc e.symm)]
    · rw [if_neg h3, ih]
      have hcond : (decide (p.2 ≤ 3) && decide (mp p.1 = c)) = false := by
        simp [h3]
      rw [show lowFilter (p :: rq) mp c = lowFilter rq mp c from by
        unfold lowFilter
        rw [List.filter_cons, if_neg (by simp [hcond])]]

theorem low_groups_lookup (rq : List (Int × Int)) (qs mp : Int → Str) (c : Str) :
    alookup c (low_groups rq qs mp) =
      optExtend none ((lowFilter rq mp c).map (lowRow qs)) := by
  unfold low_groups
  rw [low_groups_fold qs mp rq [] c]
  rfl

theorem low_groups_nodup (rq : List (Int × Int)) (qs mp : Int → Str) :
    ((low_groups rq qs mp).map Prod.fst).Nodup := by
  unfold low_groups
  have main : ∀ (l : List (Int × Int)) (acc : List (Str × List (Str × Str × Str))),
      (acc.map Prod.fst).Nodup →
      ((l.foldl
        (fun acc p =>
          if p.2 ≤ 3 then addGroup acc (mp p.1) (lowRow qs p) else acc)
        acc).map Prod.fst).Nodup := by
    intro l
    induction l with
    | nil => intro acc h; exact h
    | cons p t ih =>
      intro acc h
      rw [List.foldl_cons]
      by_cases h3 : p.2 ≤ 3
      · rw [if_pos h3]
        exact ih _ (addGroup_keys_nodup _ _ h)
      · rw [if_neg h3]
        exact ih _ h
  exact main rq [] List.nodup_nil

theorem optExtend_none_ne_nil {ρ : Type} {l : List ρ} (h : l ≠ []) :
    optExtend none l = some l := by
  cases l with
  | nil => cases h rfl
  | cons x xs => rfl

theorem mem_lowTables_iff (rq : List (Int × Int)) (qs mp : Int → Str)
    (g : Str × List (Str × Str × Str)) :
    g ∈ table_results_low_questions rq qs mp ↔ g ∈ low_groups rq qs mp :=
  (List.perm_insertionSort groupLe (low_groups rq qs mp)).mem_iff

theorem low_groups_rows_shape (rq : List (Int × Int)) (qs mp : Int → Str)
    {c : Str} {rows : List (Str × Str × Str)}
    (h : (c, rows) ∈ low_groups rq qs mp) :
    rows = (lowFilter rq mp c).map (lowRow qs) := by
  have hl := alookup_eq_some_of_mem (low_groups_nodup rq qs mp) h
  rw [low_groups_lookup] at hl
  cases hfl : (lowFilter rq mp c).map (lowRow qs) with
  | nil =>
    rw [hfl] at hl
    cases hl
  | cons x xs =>
    rw [hfl] at hl
    have : optExtend (none : Option (List (Str × Str × Str))) (x :: xs) =
        some (x :: xs) := rfl
    rw [this] at hl
    have e : x :: xs = rows := Option.some.inj hl
    rw [← e]

theorem lowFilter_conditions {rq : List (Int × Int)} {mp : Int → Str} {c : Str}
    {p : Int × Int} (h : p ∈ lowFilter rq mp c) :
    p ∈ rq ∧ p.2 ≤ 3 ∧ mp p.1 = c := by
  have h2 := List.mem_filter.mp h
  refine ⟨h2.1, ?_, ?_⟩
  · have := h2.2
    simp only [Bool.and_eq_true, decide_eq_true_eq] at this
    exact this.1
  · have := h2.2
    simp only [Bool.and_eq_true, decide_eq_true_eq] at this
    exact this.2

/-- C6.  For every session, the rows of the low-scoring report are exactly
the answers of value at most 3: every row of a rendered category table comes
from an answer of at most 3 whose question id maps to that category; every
answer of at most 3 occurs in the table of the category its question id maps
to; and a row for an answer occurs only in that one category table, and only
if the answer is at most 3. -/
theorem c6_low_report (rq : List (Int × Int)) (qs mp : Int → Str) :
    (∀ c rows, (c, rows) ∈ table_results_low_questions rq qs mp →
      ∀ r ∈ rows, ∃ p ∈ rq, p.2 ≤ 3 ∧ mp p.1 = c ∧ r = lowRow qs p) ∧
    (∀ p ∈ rq, p.2 ≤ 3 → ∃ rows,
      (mp p.1, rows) ∈ table_results_low_questions rq qs mp ∧
        lowRow qs p ∈ rows) ∧
    (∀ p ∈ rq, ∀ c rows, (c, rows) ∈ table_results_low_questions rq qs mp →
      lowRow qs p ∈ rows → p.2 ≤ 3 ∧ c = mp p.1) := by
  refine ⟨?_, ?_, ?_⟩
  · intro c rows hT r hr
    have hshape := low_groups_rows_shape rq qs mp
      ((mem_lowTables_iff rq qs mp (c, rows)).mp hT)
    rw [hshape] at hr
    obtain ⟨p, hpf, rfl⟩ := List.mem_map.mp hr
    obtain ⟨hin, h3, hc⟩ := lowFilter_conditions hpf
    exact ⟨p, hin, h3, hc, rfl⟩
  · intro p hp h3
    have hmemL : lowRow qs p ∈ (lowFilter rq mp (mp p.1)).map (lowRow qs) :=
      List.mem_map.mpr ⟨p, List.mem_filter.mpr ⟨hp, by simp [h3]⟩, rfl⟩
    have hne : (lowFilter rq mp (mp p.1)).map (lowRow qs) ≠ [] :=
      List.ne_nil_of_mem hmemL
    have hl : alookup (mp p.1) (low_groups rq qs mp) =
        some ((lowFilter rq mp (mp p.1)).map (lowRow qs)) := by
      rw [low_groups_lookup, optExtend_none_ne_nil hne]
    refine ⟨(lowFilter rq mp (mp p.1)).map (lowRow qs), ?_, hmemL⟩
    exact (mem_lowTables_iff rq qs mp _).mpr (alookup_mem hl)
  · intro p hp c rows hT hr
    have hshape := low_groups_rows_shape rq qs mp
      ((mem_lowTables_iff rq qs mp (c, rows)).mp hT)
    rw [hshape] at hr
    obtain ⟨p1, hpf, heq⟩ := List.mem_map.mp hr
    obtain ⟨hin1, h31, hc1⟩ := lowFilter_conditions hpf
    have e1 : intToChars p1.1 = intToChars p.1 := congrArg Prod.fst heq
    have e3 : intToChars p1.2 = intToChars p.2 := congrArg (fun r => r.2.2) heq
    have k1 : p1.1 = p.1 := intToChars_inj e1
    have k3 : p1.2 = p.2 := intToChars_inj e3
    rw [k1] at hc1
    rw [k3] at h31
    exact ⟨h31, hc1.symm⟩

/-!  Claim C4: the column widths of generate_rst_table.  -/

theorem getD_map_len {α β : Type} (f : α → β) :
    ∀ (l : List α) (i : Nat), i < l.length → ∀ (d1 : β) (d2 : α),
      (l.map f).getD i d1 = f (l.getD i d2) := by
  intro l
  induction l with
  | nil => intro i hi; cases hi
  | cons x xs ih =>
    intro i hi d1 d2
    cases i with
    | zero => rfl
    | succ j =>
      simp only [List.map_cons, List.getD_cons_succ]
      exact ih j (by simpa using hi) d1 d2

theorem updateCl_length : ∀ (cl : List Nat) (row : List Str),
    (updateCl cl row).length = cl.length := by
  intro cl
  induction cl with
  | nil => intro row; cases row <;> rfl
  | cons w cl ih =>
    intro row
    cases row with
    | nil => rfl
    | cons cel row => simp [updateCl, ih]

theorem updateCl_getD : ∀ (cl : List Nat) (row : List Str) (i : Nat),
    i < cl.length → row.length = cl.length → 2 ≤ cl.getD i 0 →
      (updateCl cl row).getD i 0 = max (cl.getD i 0) ((row.getD i []).length + 2) := by
  intro cl
  induction cl with
  | nil => intro row i hi; cases hi
  | cons w cl ih =>
    intro row i hi hlen h2
    cases row with
    | nil => cases hlen
    | cons cel row =>
      cases i with
      | zero =>
        simp only [updateCl, List.getD_cons_zero] at h2 ⊢
        split_ifs with hge
        · omega
        · omega
      | succ j =>
        simp only [updateCl, List.getD_cons_succ] at h2 ⊢
        exact ih row j (by simpa using hi) (by simpa using hlen) h2

theorem updateCl_two_le : ∀ (cl : List Nat) (row : List Str),
    (∀ x ∈ cl, 2 ≤ x) → ∀ x ∈ updateCl cl row, 2 ≤ x := by
  intro cl
  induction cl with
  | nil =>
    intro row h x hx
    cases row with
    | nil => cases hx
    | cons c r => cases hx
  | cons w cl ih =>
    intro row h x hx
    cases row with
    | nil => exact h x hx
    | cons cel row =>
      rcases List.mem_cons.mp hx with rfl | hx2
      · split_ifs with hge
        · omega
        · exact h w (List.mem_cons_self _ _)
      · exact ih row (fun y hy => h y (List.mem_cons_of_mem _ hy)) x hx2

theorem foldl_updateCl_length : ∀ (tbl : List (List Str)) (cl : List Nat),
    (tbl.foldl updateCl cl).length = cl.length := by
  intro tbl
  induction tbl with
  | nil => intro cl; rfl
  | cons r tbl ih =>
    intro cl
    rw [List.foldl_cons, ih, updateCl_length]

theorem col_widths_length (headings : List Str) (table : List (List Str)) :
    (col_widths headings table).length = headings.length := by
  unfold col_widths
  rw [foldl_updateCl_length, List.length_map]

theorem col_widths_two_le (headings : List Str) (table : List (List Str)) :
    ∀ x ∈ col_widths headings table, 2 ≤ x := by
  unfold col_widths
  have main : ∀ (tbl : List (List Str)) (cl : List Nat), (∀ x ∈ cl, 2 ≤ x) →
      ∀ x ∈ tbl.foldl updateCl cl, 2 ≤ x := by
    intro tbl
    induction tbl with
    | nil => intro cl h; exact h
    | cons r tbl ih =>
      intro cl h
      rw [List.foldl_cons]
      exact ih _ (updateCl_two_le cl r h)
  refine main table _ ?_
  intro x hx
  rcases List.mem_map.mp hx with ⟨h1, _, rfl⟩
  omega

theorem foldl_updateCl_getD : ∀ (tbl : List (List Str)) (cl : List Nat),
    (∀ r ∈ tbl, r.length = cl.length) → ∀ i, i < cl.length → 2 ≤ cl.getD i 0 →
      (tbl.foldl updateCl cl).getD i 0 =
        tbl.foldl (fun w r => max w ((r.getD i []).length + 2)) (cl.getD i 0) := by
  intro tbl
  induction tbl with
  | nil => intro cl _ i _ _; rfl
  | cons r tbl ih =>
    intro cl harity i hi h2
    rw [List.foldl_cons, List.foldl_cons]
    have hr : r.length = cl.length := harity r (List.mem_cons_self _ _)
    have hupd := updateCl_getD cl r i hi hr h2
    rw [ih (updateCl cl r)
      (fun x hx => by rw [updateCl_length]; exact harity x (List.mem_cons_of_mem _ hx))
      i (by rw [updateCl_length]; exact hi) (by rw [hupd]; omega)]
    rw [hupd]

theorem foldl_max_form : ∀ (tbl : List (List Str)) (i : Nat) (h : Nat),
    tbl.foldl (fun w r => max w ((r.getD i []).length + 2)) (h + 2) =
      max h (maxCellLen tbl i) + 2 := by
  intro tbl
  induction tbl with
  | nil =>
    intro i h
    simp only [List.foldl_nil, maxCellLen, List.map_nil, List.foldr_nil]
    omega
  | cons r tbl ih =>
    intro i h
    rw [List.foldl_cons]
    have e : max (h + 2) ((r.getD i []).length + 2) =
        max h ((r.getD i []).length) + 2 := by omega
    rw [e, ih]
    have e2 : maxCellLen (r :: tbl) i =
        max ((r.getD i []).length) (maxCellLen tbl i) := by
      simp [maxCellLen]
    rw [e2]
    omega

theorem col_widths_getD (headings : List Str) (table : List (List Str))
    (harity : ∀ r ∈ table, r.length = headings.length) (i : Nat)
    (hi : i < headings.length) :
    (col_widths headings table).getD i 0 =
      max ((headings.getD i []).length) (maxCellLen table i) + 2 := by
  unfold col_widths
  have hinit : (headings.map (fun h => h.length + 2)).getD i 0 =
      (headings.getD i []).length + 2 :=
    getD_map_len _ headings i hi 0 []
  rw [foldl_updateCl_getD table _
    (fun r hr => by rw [List.length_map]; exact harity r hr) i
    (by rw [List.length_map]; exact hi) (by rw [hinit]; omega)]
  rw [hinit, foldl_max_form]

theorem le_maxCellLen (table : List (List Str)) (i : Nat) :
    ∀ r ∈ table, (r.getD i []).length ≤ maxCellLen table i := by
  induction table with
  | nil => intro r hr; cases hr
  | cons r1 tbl ih =>
    intro r hr
    have e : maxCellLen (r1 :: tbl) i =
        max ((r1.getD i []).length) (maxCellLen tbl i) := by
      simp [maxCellLen]
    rcases List.mem_cons.mp hr with rfl | hm
    · rw [e]; omega
    · have := ih r hm
      rw [e]; omega

/-- C4.  With rows of the same arity as the headings, generate_rst_table
computes the width of column i as the maximum of the heading length and the
longest cell of the column, plus 2; in particular the width is at least the
heading length plus 2 and at least every cell length of the column plus 2. -/
theorem c4_column_widths (headings : List Str) (table : List (List Str))
    (harity : ∀ r ∈ table, r.length = headings.length) (i : Nat)
    (hi : i < headings.length) :
    (col_widths headings table).getD i 0 =
      max ((headings.getD i []).length) (maxCellLen table i) + 2 ∧
    (headings.getD i []).length + 2 ≤ (col_widths headings table).getD i 0 ∧
    ∀ r ∈ table, (r.getD i []).length + 2 ≤ (col_widths headings table).getD i 0 := by
  have he := col_widths_getD headings table harity i hi
  refine ⟨he, by rw [he]; omega, ?_⟩
  intro r hr
  have := le_maxCellLen table i r hr
  rw [he]
  omega

theorem c4_witness :
    (∀ r ∈ sampleTable, r.length = sampleHeads.length) ∧
    0 < sampleHeads.length ∧
    ((col_widths sampleHeads sampleTable).getD 0 0 =
        max ((sampleHeads.getD 0 []).length) (maxCellLen sampleTable 0) + 2 ∧
      (sampleHeads.getD 0 []).length + 2 ≤
        (col_widths sampleHeads sampleTable).getD 0 0 ∧
      ∀ r ∈ sampleTable, (r.getD 0 []).length + 2 ≤
        (col_widths sampleHeads sampleTable).getD 0 0) :=
  ⟨by decide, by decide,
    c4_column_widths sampleHeads sampleTable (by decide) 0 (by decide)⟩

/-!  Claims C5 and C9: shape of the rendered table.  -/

theorem countP_no_border {l : Str} (h : ∀ c ∈ l, isBorderCh c = false) :
    l.countP isBorderCh = 0 := by
  rw [List.countP_eq_zero]
  intro a ha
  rw [h a ha]
  simp

theorem mem_zipWith {α β γ : Type} {f : α → β → γ} :
    ∀ {as : List α} {bs : List β} {x : γ}, x ∈ List.zipWith f as bs →
      ∃ a ∈ as, ∃ b ∈ bs, x = f a b := by
  intro as
  induction as with
  | nil => intro bs x h; cases h
  | cons a as ih =>
    intro bs x h
    cases bs with
    | nil => cases h
    | cons b bs =>
      rcases List.mem_cons.mp h with rfl | h2
      · exact ⟨a, List.mem_cons_self _ _, b, List.mem_cons_self _ _, rfl⟩
      · obtain ⟨a1, ha1, b1, hb1, rfl⟩ := ih h2
        exact ⟨a1, List.mem_cons_of_mem _ ha1, b1, List.mem_cons_of_mem _ hb1, rfl⟩

theorem mem_pyCenter {w : Nat} {s : Str} {c : Char} (h : c ∈ pyCenter w s) :
    c = ' ' ∨ c ∈ s := by
  unfold pyCenter at h
  rcases List.mem_append.mp h with h | h
  · rcases List.mem_append.mp h with h | h
    · exact Or.inl (List.eq_of_mem_replicate h)
    · exact Or.inr h
  · exact Or.inl (List.eq_of_mem_replicate h)

theorem borderCount_hLine (cl : List Nat) :
    borderCount (hLine cl) = cl.length + 1 := by
  unfold borderCount hLine
  rw [joinWith_countP]
  have hz : ∀ part ∈ ([([] : Str)] ++ cl.map (fun w => List.replicate w '-') ++
      [([] : Str)]), part.countP isBorderCh = 0 := by
    intro part hp
    apply countP_no_border
    intro c hc
    rcases List.mem_append.mp hp with hp | hp
    · rcases List.mem_append.mp hp with hp | hp
      · rcases List.mem_singleton.mp hp with rfl
        cases hc
      · rcases List.mem_map.mp hp with ⟨w, _, rfl⟩
        rcases List.eq_of_mem_replicate hc with rfl
        decide
    · rcases List.mem_singleton.mp hp with rfl
      cases hc
  have hsum : (([([] : Str)] ++ cl.map (fun w => List.replicate w '-') ++
      [([] : Str)]).map (List.countP isBorderCh)).sum = 0 := by
    apply List.sum_eq_zero
    intro x hx
    rcases List.mem_map.mp hx with ⟨part, hp, rfl⟩
    exact hz part hp
  rw [hsum]
  simp only [List.length_append, List.length_cons, List.length_nil,
    List.length_map]
  have : isBorderCh '+' = true := by decide
  rw [this]
  simp
  omega

theorem borderCount_rowLine (cl : List Nat) (cells : List Str)
    (hglyph : ∀ cell ∈ cells, ∀ c ∈ cell, isBorderCh c = false) :
    borderCount (rowLine cl cells) = (List.zipWith pyCenter cl cells).length + 1 := by
  unfold borderCount rowLine
  rw [joinWith_countP]
  have hz : ∀ part ∈ ([([] : Str)] ++ List.zipWith pyCenter cl cells ++
      [([] : Str)]), part.countP isBorderCh = 0 := by
    intro part hp
    apply countP_no_border
    intro c hc
    rcases List.mem_append.mp hp with hp | hp
    · rcases List.mem_append.mp hp with hp | hp
      · rcases List.mem_singleton.mp hp with rfl
        cases hc
      · obtain ⟨w, _, cell, hcell, rfl⟩ := mem_zipWith hp
        rcases mem_pyCenter hc with rfl | hc2
        · decide
        · exact hglyph cell hcell c hc2
    · rcases List.mem_singleton.mp hp with rfl
      cases hc
  have hsum : (([([] : Str)] ++ List.zipWith pyCenter cl cells ++
      [([] : Str)]).map (List.countP isBorderCh)).sum = 0 := by
    apply List.sum_eq_zero
    intro x hx
    rcases List.mem_map.mp hx with ⟨part, hp, rfl⟩
    exact hz part hp
  rw [hsum]
  simp only [List.length_append, List.length_cons, List.length_nil]
  have : isBorderCh '|' = true := by decide
  rw [this]
  simp
  omega

theorem borderCount_pyReplace (l : Str) :
    borderCount (pyReplace '-' '=' l) = borderCount l := by
  unfold borderCount pyReplace
  rw [List.countP_map]
  apply List.countP_congr
  intro a _
  by_cases ha : a = '-'
  · subst ha
    rfl
  · simp [Function.comp, ha]

theorem drop2_generate (table : List (List Str)) (title : Str)
    (headings : List Str) :
    (generate_rst_table table title headings).drop 2 =
      [hLine (col_widths headings table),
        rowLine (col_widths headings table) headings,
        pyReplace '-' '=' (hLine (col_widths headings table))] ++
      (table.map (fun r => [rowLine (col_widths headings table) r,
        hLine (col_widths headings table)])).flatten := rfl

theorem mem_generate_cases {table : List (List Str)} {title : Str}
    {headings : List Str} {l : Str}
    (h : l ∈ generate_rst_table table title headings) :
    l = '+' :: (List.replicate (tableWidth (col_widths headings table)) '-' ++
        ['+']) ∨
    l = '|' :: (pyLjust (tableWidth (col_widths headings table)) title ++
        ['|']) ∨
    l = hLine (col_widths headings table) ∨
    l = rowLine (col_widths headings table) headings ∨
    l = pyReplace '-' '=' (hLine (col_widths headings table)) ∨
    ∃ r ∈ table, l = rowLine (col_widths headings table) r := by
  have h2 : l ∈ ([ '+' :: (List.replicate (tableWidth (col_widths headings table))
        '-' ++ ['+']),
      '|' :: (pyLjust (tableWidth (col_widths headings table)) title ++ ['|']),
      hLine (col_widths headings table),
      rowLine (col_widths headings table) headings,
      pyReplace '-' '=' (hLine (col_widths headings table)) ] ++
      (table.map (fun r => [rowLine (col_widths headings table) r,
        hLine (col_widths headings table)])).flatten) := h
  rcases List.mem_append.mp h2 with h3 | h3
  · rcases List.mem_cons.mp h3 with rfl | h3
    · exact Or.inl rfl
    rcases List.mem_cons.mp h3 with rfl | h3
    · exact Or.inr (Or.inl rfl)
    rcases List.mem_cons.mp h3 with rfl | h3
    · exact Or.inr (Or.inr (Or.inl rfl))
    rcases List.mem_cons.mp h3 with rfl | h3
    · exact Or.inr (Or.inr (Or.inr (Or.inl rfl)))
    rcases List.mem_singleton.mp h3 with rfl
    exact Or.inr (Or.inr (Or.inr (Or.inr (Or.inl rfl))))
  · rcases List.mem_flatten.mp h3 with ⟨s, hs1, hs2⟩
    rcases List.mem_map.mp hs1 with ⟨r, hr, rfl⟩
    rcases List.mem_cons.mp hs2 with rfl | hs3
    · exact Or.inr (Or.inr (Or.inr (Or.inr (Or.inr ⟨r, hr, rfl⟩))))
    rcases List.mem_singleton.mp hs3 with rfl
    exact Or.inr (Or.inr (Or.inl rfl))

/-- C5 counterexample.  On a 2-column table the claim that every rendered
line contains exactly columns+1 border glyphs fails: the top border line and
the title line contain only their 2 outer glyphs. -/
theorem c5_counterexample :
    ¬ ∀ l ∈ generate_rst_table sampleTable sampleTitle sampleHeads,
      borderCount l = sampleHeads.length + 1 := by
  decide

/-- C5 amended.  With rows of heading arity and no bar or plus character in
any cell or heading, every line of the table other than the first two (the
top border and the title line) contains exactly columns+1 border glyphs; the
first two lines contain exactly 2. -/
theorem c5_amended (table : List (List Str)) (title : Str) (headings : List Str)
    (harity : ∀ r ∈ table, r.length = headings.length)
    (hcells : ∀ r ∈ table, ∀ cell ∈ r, ∀ c ∈ cell, isBorderCh c = false)
    (hheads : ∀ cell ∈ headings, ∀ c ∈ cell, isBorderCh c = false) :
    ∀ l ∈ (generate_rst_table table title headings).drop 2,
      borderCount l = headings.length + 1 := by
  intro l hl
  have hlen := col_widths_length headings table
  rw [drop2_generate] at hl
  rcases List.mem_append.mp hl with h3 | h3
  · rcases List.mem_cons.mp h3 with rfl | h3
    · rw [borderCount_hLine, hlen]
    rcases List.mem_cons.mp h3 with rfl | h3
    · rw [borderCount_rowLine _ _ hheads, List.length_zipWith, hlen]
      omega
    rcases List.mem_singleton.mp h3 with rfl
    rw [borderCount_pyReplace, borderCount_hLine, hlen]
  · rcases List.mem_flatten.mp h3 with ⟨s, hs1, hs2⟩
    rcases List.mem_map.mp hs1 with ⟨r, hr, rfl⟩
    rcases List.mem_cons.mp hs2 with rfl | hs3
    · rw [borderCount_rowLine _ _ (hcells r hr), List.length_zipWith, hlen,
        harity r hr]
      omega
    rcases List.mem_singleton.mp hs3 with rfl
    rw [borderCount_hLine, hlen]

theorem c5_witness :
    (∀ r ∈ sampleTable, r.length = sampleHeads.length) ∧
    (∀ r ∈ sampleTable, ∀ cell ∈ r, ∀ c ∈ cell, isBorderCh c = false) ∧
    (∀ cell ∈ sampleHeads, ∀ c ∈ cell, isBorderCh c = false) ∧
    ∀ l ∈ (generate_rst_table sampleTable sampleTitle sampleHeads).drop 2,
      borderCount l = sampleHeads.length + 1 :=
  ⟨by decide, by decide, by decide,
    c5_amended sampleTable sampleTitle sampleHeads (by decide) (by decide)
      (by decide)⟩

/-!  Claim C9: all rendered lines have the same length.  -/

theorem length_pyCenter {w : Nat} {s : Str} (h : s.length ≤ w) :
    (pyCenter w s).length = w := by
  unfold pyCenter
  simp only [List.length_append, List.length_replicate]
  omega

theorem length_pyLjust (w : Nat) (s : Str) :
    (pyLjust w s).length = max w s.length := by
  unfold pyLjust
  simp only [List.length_append, List.length_replicate]
  omega

theorem zip_center_lengths : ∀ (cl : List Nat) (cells : List Str),
    cells.length = cl.length →
    (∀ i, i < cl.length → (cells.getD i []).length ≤ cl.getD i 0) →
    (List.zipWith pyCenter cl cells).map List.length = cl := by
  intro cl
  induction cl with
  | nil => intro cells _ _; cases cells <;> rfl
  | cons w cl ih =>
    intro cells hlen hb
    cases cells with
    | nil => cases hlen
    | cons cel cells =>
      simp only [List.zipWith_cons_cons, List.map_cons]
      rw [length_pyCenter (by
        have := hb 0 (by simp)
        simpa using this)]
      rw [ih cells (by simpa using hlen) (fun i hi => by
        have := hb (i + 1) (by simpa using hi)
        simpa using this)]

theorem rowLine_length (cl : List Nat) (cells : List Str)
    (hlen : cells.length = cl.length)
    (hb : ∀ i, i < cl.length → (cells.getD i []).length ≤ cl.getD i 0) :
    (rowLine cl cells).length = cl.sum + cl.length + 1 := by
  unfold rowLine
  rw [joinWith_length]
  have hmap : (([([] : Str)] ++ List.zipWith pyCenter cl cells ++
      [([] : Str)]).map List.length) =
      [0] ++ cl ++ [0] := by
    rw [List.map_append, List.map_append, zip_center_lengths cl cells hlen hb]
    rfl
  rw [hmap]
  simp only [List.length_append, List.length_cons, List.length_nil,
    List.sum_append, List.length_zipWith, hlen]
  simp
  omega

theorem hLine_length (cl : List Nat) :
    (hLine cl).length = cl.sum + cl.length + 1 := by
  unfold hLine
  rw [joinWith_length]
  have hmap : (([([] : Str)] ++ cl.map (fun w => List.replicate w '-') ++
      [([] : Str)]).map List.length) = [0] ++ cl ++ [0] := by
    rw [List.map_append, List.map_append, List.map_map]
    have : (List.length ∘ fun w => List.replicate w '-') = fun w : Nat => w := by
      funext w
      simp
    rw [this]
    simp
  rw [hmap]
  simp only [List.length_append, List.length_cons, List.length_nil,
    List.length_map, List.sum_append]
  simp
  omega

/-- C9.  With rows of heading arity, at least one column, and a title no
longer than the computed total width, every line of the rendered table has
the same length: the sum of the column widths plus the number of columns
plus one. -/
theorem c9_line_lengths (table : List (List Str)) (title : Str)
    (headings : List Str) (h0 : 0 < headings.length)
    (harity : ∀ r ∈ table, r.length = headings.length)
    (htitle : title.length ≤ tableWidth (col_widths headings table)) :
    ∀ l ∈ generate_rst_table table title headings,
      l.length = (col_widths headings table).sum + headings.length + 1 := by
  intro l hl
  have hlen := col_widths_length headings table
  have hwidth : tableWidth (col_widths headings table) + 2 =
      (col_widths headings table).sum + headings.length + 1 := by
    unfold tableWidth
    rw [hlen]
    omega
  have hheadb : ∀ i, i < (col_widths headings table).length →
      ((headings.getD i []).length ≤ (col_widths headings table).getD i 0) := by
    intro i hi
    have he := col_widths_getD headings table harity i (by rwa [hlen] at hi)
    omega
  have hcellb : ∀ r ∈ table, ∀ i, i < (col_widths headings table).length →
      ((r.getD i []).length ≤ (col_widths headings table).getD i 0) := by
    intro r hr i hi
    have he := col_widths_getD headings table harity i (by rwa [hlen] at hi)
    have hle := le_maxCellLen table i r hr
    omega
  rcases mem_generate_cases hl with rfl | h | h | h | h | ⟨r, hr, rfl⟩
  · simp only [List.length_cons, List.length_append, List.length_replicate,
      List.length_nil]
    omega
  · rw [h]
    simp only [List.length_cons, List.length_append, List.length_nil]
    rw [length_pyLjust, Nat.max_eq_left htitle]
    omega
  · rw [h, hLine_length, hlen]
  · rw [h, rowLine_length _ _ (by rw [hlen]) hheadb, hlen]
  · rw [h]
    unfold pyReplace
    rw [List.length_map, hLine_length, hlen]
  · rw [rowLine_length _ _ (by rw [hlen]; exact harity r hr) (hcellb r hr), hlen]

theorem c9_witness :
    0 < sampleHeads.length ∧
    (∀ r ∈ sampleTable, r.length = sampleHeads.length) ∧
    sampleTitle.length ≤ tableWidth (col_widths sampleHeads sampleTable) ∧
    ∀ l ∈ generate_rst_table sampleTable sampleTitle sampleHeads,
      l.length = (col_widths sampleHeads sampleTable).sum +
        sampleHeads.length + 1 :=
  ⟨by decide, by decide, by decide,
    c9_line_lengths sampleTable sampleTitle sampleHeads (by decide) (by decide)
      (by decide)⟩
